import Mathlib

/-!
Verification of the pytree flatten/unflatten core of `jax/_src/tree_util.py`.

The Python module dispatches on runtime types through three coexisting
registries.  The engine itself (`default_registry.flatten`,
`PyTreeDef.unflatten`, `num_leaves`, `num_nodes`, `flatten_up_to`,
`compose`, `flatten_one_level`) lives in the C extension module
`jax._src.lib.pytree`, which is not part of the given sources; those
operations are modelled from the specification.  Everything else
(`tree_map`, `tree_transpose`, `_registry`, key-path generation,
`_equality_errors`, `_prefix_error`, `treedef_is_leaf`) is translated
from `src/jax/_src/tree_util.py`.

The embedding fixes the closed universe of registered node types that the
source module itself registers: tuples, lists, dicts, `OrderedDict`,
`defaultdict`, `None`, plus a generic constructor standing for any type
registered through `register_pytree_node` whose flatten/unflatten pair
satisfies the registry round-trip contract.  Leaves are opaque payloads
carrying a natural number.  Dict keys are encoded as natural numbers
(Python requires them sortable; the encoding preserves the order).
Children sequences are represented by the mutually inductive types
`PyForest` (positional children) and `PyEntries` (keyed children) so that
every operation is structurally recursive and kernel-computable.
-/

mutual

/-- A Python value as seen by the pytree machinery: an opaque leaf or one of
the registered container types (data model of the source module). -/
inductive PyTree : Type where
  | leaf (v : Nat)
  | tupleN (cs : PyForest)
  | listN (cs : PyForest)
  | dictN (es : PyEntries)
  | odictN (es : PyEntries)
  | ddictN (fac : Nat) (es : PyEntries)
  | noneN
  | custom (tag : Nat) (aux : Nat) (cs : PyForest)
  deriving DecidableEq, Repr

/-- An ordered sequence of child trees (positional containers). -/
inductive PyForest : Type where
  | nil
  | cons (c : PyTree) (cs : PyForest)
  deriving DecidableEq, Repr

/-- An ordered sequence of key/child pairs (mapping containers), in
insertion order as constructed. -/
inductive PyEntries : Type where
  | nil
  | cons (k : Nat) (c : PyTree) (es : PyEntries)
  deriving DecidableEq, Repr

end

mutual

/-- Modelled from the spec: the immutable structural descriptor `PyTreeDef`
of the C extension module `jax._src.lib.pytree` (not under the given
sources).  `Leaf` or a node tag with auxiliary metadata and children
treedefs; mapping nodes record their keys paired with the child treedefs. -/
inductive TreeDef : Type where
  | leaf
  | tupleN (ts : TDForest)
  | listN (ts : TDForest)
  | dictN (es : TDEntries)
  | odictN (es : TDEntries)
  | ddictN (fac : Nat) (es : TDEntries)
  | noneN
  | custom (tag : Nat) (aux : Nat) (ts : TDForest)
  deriving DecidableEq, Repr

/-- Children treedefs of a positional node. -/
inductive TDForest : Type where
  | nil
  | cons (t : TreeDef) (ts : TDForest)
  deriving DecidableEq, Repr

/-- Key/child-treedef pairs of a mapping node. -/
inductive TDEntries : Type where
  | nil
  | cons (k : Nat) (t : TreeDef) (es : TDEntries)
  deriving DecidableEq, Repr

end

/-- Convert a forest to an ordinary list of trees. -/
def PyForest.toList : PyForest → List PyTree
  | .nil => []
  | .cons c cs => c :: cs.toList

/-- Convert a list of trees to a forest. -/
def PyForest.ofList : List PyTree → PyForest
  | [] => .nil
  | c :: cs => .cons c (PyForest.ofList cs)

/-- Convert mapping entries to an ordinary association list. -/
def PyEntries.toList : PyEntries → List (Nat × PyTree)
  | .nil => []
  | .cons k c es => (k, c) :: es.toList

/-- Convert an association list to mapping entries. -/
def PyEntries.ofList : List (Nat × PyTree) → PyEntries
  | [] => .nil
  | (k, c) :: es => .cons k c (PyEntries.ofList es)

/-- Convert treedef children to an ordinary list. -/
def TDForest.toList : TDForest → List TreeDef
  | .nil => []
  | .cons t ts => t :: ts.toList

/-- Convert a list of treedefs to treedef children. -/
def TDForest.ofList : List TreeDef → TDForest
  | [] => .nil
  | t :: ts => .cons t (TDForest.ofList ts)

/-- Convert treedef mapping entries to an association list. -/
def TDEntries.toList : TDEntries → List (Nat × TreeDef)
  | .nil => []
  | .cons k t es => (k, t) :: es.toList

/-- Convert an association list to treedef mapping entries. -/
def TDEntries.ofList : List (Nat × TreeDef) → TDEntries
  | [] => .nil
  | (k, t) :: es => .cons k t (TDEntries.ofList es)

/-- Insert a keyed item into a list sorted by key, before the first
strictly larger key (stable, as Python `sorted` is). -/
def insertByKey {α : Type} (p : Nat × α) : List (Nat × α) → List (Nat × α)
  | [] => [p]
  | q :: qs => if p.1 ≤ q.1 then p :: q :: qs else q :: insertByKey p qs

/-- Stable insertion sort by key: the canonicalization Python's
`sorted(d.items())` performs on mapping entries (dict keys are unique, so
comparing keys alone is the whole comparison). -/
def sortByKey {α : Type} : List (Nat × α) → List (Nat × α)
  | [] => []
  | p :: ps => insertByKey p (sortByKey ps)

mutual

/-- Modelled from the spec: `num_leaves` of a `PyTreeDef` (C extension,
not under the given sources) — the count of `Leaf` occurrences. -/
def TreeDef.numLeaves : TreeDef → Nat
  | .leaf => 1
  | .tupleN ts => ts.numLeaves
  | .listN ts => ts.numLeaves
  | .dictN es => es.numLeaves
  | .odictN es => es.numLeaves
  | .ddictN _ es => es.numLeaves
  | .noneN => 0
  | .custom _ _ ts => ts.numLeaves

/-- Total leaf count of a sequence of child treedefs. -/
def TDForest.numLeaves : TDForest → Nat
  | .nil => 0
  | .cons t ts => t.numLeaves + ts.numLeaves

/-- Total leaf count of keyed child treedefs. -/
def TDEntries.numLeaves : TDEntries → Nat
  | .nil => 0
  | .cons _ t es => t.numLeaves + es.numLeaves

end

mutual

/-- Modelled from the spec: `num_nodes` of a `PyTreeDef` (C extension, not
under the given sources) — the count of all nodes, a leaf counting as one
node, an interior node as one plus its children's counts. -/
def TreeDef.numNodes : TreeDef → Nat
  | .leaf => 1
  | .tupleN ts => 1 + ts.numNodes
  | .listN ts => 1 + ts.numNodes
  | .dictN es => 1 + es.numNodes
  | .odictN es => 1 + es.numNodes
  | .ddictN _ es => 1 + es.numNodes
  | .noneN => 1
  | .custom _ _ ts => 1 + ts.numNodes

/-- Total node count of a sequence of child treedefs. -/
def TDForest.numNodes : TDForest → Nat
  | .nil => 0
  | .cons t ts => t.numNodes + ts.numNodes

/-- Total node count of keyed child treedefs. -/
def TDEntries.numNodes : TDEntries → Nat
  | .nil => 0
  | .cons _ t es => t.numNodes + es.numNodes

end

mutual

/-- Modelled from the spec: the flatten engine (`default_registry.flatten`
of the C extension, not under the given sources; wrapped by
`tree_flatten`, lines 74-107 of `tree_util.py`).  Depth-first,
left-to-right; the caller-supplied `is_leaf` predicate `il` is consulted
before the registry; mapping (`dict`, `defaultdict`) children are emitted
in sorted key order (the per-entry results are computed first and then
sorted by key, which sorts by the same keys Python sorts by and yields the
same output); `OrderedDict` children keep insertion order; `None` is a
zero-child node in the default registry. -/
def flattenT (il : PyTree → Bool) (t : PyTree) : List PyTree × TreeDef :=
  if il t then ([t], .leaf) else
  match t with
  | .leaf v => ([PyTree.leaf v], .leaf)
  | .tupleN cs =>
    let rs := flattenF il cs
    ((rs.map Prod.fst).flatten, .tupleN (TDForest.ofList (rs.map Prod.snd)))
  | .listN cs =>
    let rs := flattenF il cs
    ((rs.map Prod.fst).flatten, .listN (TDForest.ofList (rs.map Prod.snd)))
  | .dictN es =>
    let rs := sortByKey (flattenE il es)
    ((rs.map (fun p => p.2.1)).flatten,
     .dictN (TDEntries.ofList (rs.map (fun p => (p.1, p.2.2)))))
  | .odictN es =>
    let rs := flattenE il es
    ((rs.map (fun p => p.2.1)).flatten,
     .odictN (TDEntries.ofList (rs.map (fun p => (p.1, p.2.2)))))
  | .ddictN fac es =>
    let rs := sortByKey (flattenE il es)
    ((rs.map (fun p => p.2.1)).flatten,
     .ddictN fac (TDEntries.ofList (rs.map (fun p => (p.1, p.2.2)))))
  | .noneN => ([], .noneN)
  | .custom tag aux cs =>
    let rs := flattenF il cs
    ((rs.map Prod.fst).flatten, .custom tag aux (TDForest.ofList (rs.map Prod.snd)))

/-- Flatten every tree of a forest, keeping the per-child results. -/
def flattenF (il : PyTree → Bool) : PyForest → List (List PyTree × TreeDef)
  | .nil => []
  | .cons c cs => flattenT il c :: flattenF il cs

/-- Flatten every entry of a mapping, keeping key and per-child result. -/
def flattenE (il : PyTree → Bool) : PyEntries → List (Nat × (List PyTree × TreeDef))
  | .nil => []
  | .cons k c es => (k, flattenT il c) :: flattenE il es

end

/-- The default `is_leaf=None` argument of the traversal entry points. -/
def ilNone : PyTree → Bool := fun _ => false

/-- `tree_flatten` (lines 74-107): flatten a pytree into its leaf list and
treedef, delegating to the engine. -/
def tree_flatten (il : PyTree → Bool) (t : PyTree) : List PyTree × TreeDef :=
  flattenT il t

/-- `tree_structure` (lines 169-195): the treedef of a tree. -/
def tree_structure (il : PyTree → Bool) (t : PyTree) : TreeDef :=
  (tree_flatten il t).2

/-- `tree_leaves` (lines 140-166): the leaf list of a tree. -/
def tree_leaves (il : PyTree → Bool) (t : PyTree) : List PyTree :=
  (tree_flatten il t).1

mutual

/-- Modelled from the spec: the unflatten walk of `PyTreeDef.unflatten`
(C extension, not under the given sources; wrapped by `tree_unflatten`,
lines 110-137).  Walks the treedef top-down, consuming one value from the
leaf cursor at each `Leaf`; returns the rebuilt tree and the remaining
leaves, or `none` when the cursor runs out. -/
def unflattenAux : TreeDef → List PyTree → Option (PyTree × List PyTree)
  | .leaf, ls =>
    match ls with
    | [] => none
    | l :: rest => some (l, rest)
  | .tupleN ts, ls =>
    match unflattenF ts ls with
    | none => none
    | some (cs, rest) => some (.tupleN cs, rest)
  | .listN ts, ls =>
    match unflattenF ts ls with
    | none => none
    | some (cs, rest) => some (.listN cs, rest)
  | .dictN es, ls =>
    match unflattenE es ls with
    | none => none
    | some (cs, rest) => some (.dictN cs, rest)
  | .odictN es, ls =>
    match unflattenE es ls with
    | none => none
    | some (cs, rest) => some (.odictN cs, rest)
  | .ddictN fac es, ls =>
    match unflattenE es ls with
    | none => none
    | some (cs, rest) => some (.ddictN fac cs, rest)
  | .noneN, ls => some (.noneN, ls)
  | .custom tag aux ts, ls =>
    match unflattenF ts ls with
    | none => none
    | some (cs, rest) => some (.custom tag aux cs, rest)

/-- Unflatten a sequence of child treedefs against the shared leaf cursor. -/
def unflattenF : TDForest → List PyTree → Option (PyForest × List PyTree)
  | .nil, ls => some (.nil, ls)
  | .cons t ts, ls =>
    match unflattenAux t ls with
    | none => none
    | some (c, rest) =>
      match unflattenF ts rest with
      | none => none
      | some (cs, rest2) => some (.cons c cs, rest2)

/-- Unflatten keyed child treedefs against the shared leaf cursor,
re-pairing each key with its rebuilt child. -/
def unflattenE : TDEntries → List PyTree → Option (PyEntries × List PyTree)
  | .nil, ls => some (.nil, ls)
  | .cons k t es, ls =>
    match unflattenAux t ls with
    | none => none
    | some (c, rest) =>
      match unflattenE es rest with
      | none => none
      | some (cs, rest2) => some (.cons k c cs, rest2)

end

/-- `tree_unflatten` (lines 110-137): rebuild a tree from treedef and
leaves; `none` stands for the `StructureMismatch` error raised when the
leaf sequence length disagrees with `num_leaves(treedef)`. -/
def tree_unflatten (td : TreeDef) (leaves : List PyTree) : Option PyTree :=
  match unflattenAux td leaves with
  | some (t, []) => some t
  | _ => none

example : tree_flatten ilNone
    (.listN (.cons (.leaf 1)
      (.cons (.tupleN (.cons (.leaf 2) (.cons (.leaf 3) .nil)))
      (.cons (.listN (.cons (.leaf 4) (.cons (.leaf 5) .nil))) .nil)))) =
    ([.leaf 1, .leaf 2, .leaf 3, .leaf 4, .leaf 5],
     .listN (.cons .leaf (.cons (.tupleN (.cons .leaf (.cons .leaf .nil)))
       (.cons (.listN (.cons .leaf (.cons .leaf .nil))) .nil)))) := by decide

example : tree_flatten ilNone (.dictN (.cons 1 (.leaf 1) (.cons 0 (.leaf 2) .nil))) =
    ([.leaf 2, .leaf 1], .dictN (.cons 0 .leaf (.cons 1 .leaf .nil))) := by decide

example : tree_unflatten (.dictN (.cons 0 .leaf (.cons 1 .leaf .nil)))
    [.leaf 2, .leaf 1] =
    some (.dictN (.cons 0 (.leaf 2) (.cons 1 (.leaf 1) .nil))) := by decide

mutual

/-- Modelled from the spec: `PyTreeDef.flatten_up_to` (C extension, not
under the given sources) — decompose a subject tree only as far as the
treedef's shape requires.  A `Leaf` accepts any subtree as one slot; a
node requires the subject to be the same node type with matching keys,
length and metadata, recursing into the children; anything else is the
`StructureMismatch` error (`none`).  Mapping subjects are matched in
sorted key order against the treedef's recorded keys; `OrderedDict`
subjects in insertion order. -/
def flattenUpTo : TreeDef → PyTree → Option (List PyTree)
  | .leaf, t => some [t]
  | .tupleN ts, .tupleN cs => flattenUpToF ts cs.toList
  | .tupleN _, _ => none
  | .listN ts, .listN cs => flattenUpToF ts cs.toList
  | .listN _, _ => none
  | .dictN es, .dictN ses => flattenUpToE es (sortByKey ses.toList)
  | .dictN _, _ => none
  | .odictN es, .odictN ses => flattenUpToE es ses.toList
  | .odictN _, _ => none
  | .ddictN fac es, .ddictN fac2 ses =>
    if fac = fac2 then flattenUpToE es (sortByKey ses.toList) else none
  | .ddictN _ _, _ => none
  | .noneN, .noneN => some []
  | .noneN, _ => none
  | .custom tag aux ts, .custom tag2 aux2 cs =>
    if tag = tag2 ∧ aux = aux2 then flattenUpToF ts cs.toList else none
  | .custom _ _ _, _ => none

/-- Positional children of `flatten_up_to`: arities must agree and the
per-child leaf slices are concatenated in order. -/
def flattenUpToF : TDForest → List PyTree → Option (List PyTree)
  | .nil, [] => some []
  | .nil, _ :: _ => none
  | .cons _ _, [] => none
  | .cons t ts, c :: cs =>
    match flattenUpTo t c with
    | none => none
    | some ls =>
      match flattenUpToF ts cs with
      | none => none
      | some ls2 => some (ls ++ ls2)

/-- Keyed children of `flatten_up_to`: keys must agree pairwise. -/
def flattenUpToE : TDEntries → List (Nat × PyTree) → Option (List PyTree)
  | .nil, [] => some []
  | .nil, _ :: _ => none
  | .cons _ _ _, [] => none
  | .cons k t es, (k2, c) :: cs =>
    if k = k2 then
      match flattenUpTo t c with
      | none => none
      | some ls =>
        match flattenUpToE es cs with
        | none => none
        | some ls2 => some (ls ++ ls2)
    else none

end

/-- Length of the shortest list, `0` when there are no lists: the number
of tuples Python's `zip(*xss)` yields. -/
def zipLen : List (List PyTree) → Nat
  | [] => 0
  | [l] => l.length
  | l :: xss => min l.length (zipLen xss)

/-- Python's `zip(*xss)`: the i-th output row collects the i-th element of
every list, stopping at the shortest list (and yielding nothing when
there are no lists at all). -/
def zipAll (xss : List (List PyTree)) : List (List PyTree) :=
  (List.range (zipLen xss)).map fun i => xss.map (fun l => l.getD i PyTree.noneN)

/-- Apply a fallible function to every list element, left to right,
failing on the first failure: the effect of a Python list comprehension
over calls that may raise. -/
def mapOpt {α β : Type} (f : α → Option β) : List α → Option (List β)
  | [] => some []
  | r :: rest =>
    match f r with
    | none => none
    | some y =>
      match mapOpt f rest with
      | none => none
      | some ys => some (y :: ys)

/-- `tree_map` (lines 431-473): flatten the first tree, decompose every
`rest` tree up to that treedef, apply `f` to the tuples of corresponding
leaves in traversal order and rewrap with the treedef.  `f` receives the
list of `1 + len(rest)` positional leaf arguments; `none` stands for the
`StructureMismatch` raised when a `rest` tree diverges from the treedef. -/
def tree_map (f : List PyTree → PyTree) (il : PyTree → Bool)
    (t : PyTree) (rest : List PyTree) : Option PyTree :=
  let leaves := (tree_flatten il t).1
  let treedef := (tree_flatten il t).2
  match mapOpt (fun r => flattenUpTo treedef r) rest with
  | none => none
  | some restLeaves =>
    tree_unflatten treedef ((zipAll (leaves :: restLeaves)).map f)

mutual

/-- Modelled from the spec: `PyTreeDef.compose` (C extension, not under
the given sources) — the treedef obtained by replacing every leaf of the
outer treedef with the inner treedef; `tree_transpose` names it in its
mismatch error. -/
def TreeDef.compose (inner : TreeDef) : TreeDef → TreeDef
  | .leaf => inner
  | .tupleN ts => .tupleN (TDForest.compose inner ts)
  | .listN ts => .listN (TDForest.compose inner ts)
  | .dictN es => .dictN (TDEntries.compose inner es)
  | .odictN es => .odictN (TDEntries.compose inner es)
  | .ddictN fac es => .ddictN fac (TDEntries.compose inner es)
  | .noneN => .noneN
  | .custom tag aux ts => .custom tag aux (TDForest.compose inner ts)

/-- Compose an inner treedef under every child of a forest of treedefs. -/
def TDForest.compose (inner : TreeDef) : TDForest → TDForest
  | .nil => .nil
  | .cons t ts => .cons (TreeDef.compose inner t) (TDForest.compose inner ts)

/-- Compose an inner treedef under every keyed child treedef. -/
def TDEntries.compose (inner : TreeDef) : TDEntries → TDEntries
  | .nil => .nil
  | .cons k t es => .cons k (TreeDef.compose inner t) (TDEntries.compose inner es)

end

/-- Outcome of `tree_transpose`: success, the `TypeError` whose message
names the expected composed treedef (leaf-count disagreement), or the
`StructureMismatch` raised by one of the internal `tree_unflatten` calls. -/
inductive TransposeResult : Type where
  | ok (t : PyTree)
  | mismatch (expected : TreeDef)
  | unflattenFail
  deriving DecidableEq, Repr

/-- `tree_transpose` (lines 507-549) with the inner treedef supplied:
flatten the tree, require `num_leaves(tree) = inner_size * outer_size`
(else the error naming `outer.compose(inner)`), reshape the flat leaves
into an `outer x inner` row-major grid, transpose it with `zip`, rebuild
each transposed row with the outer treedef and wrap the rows with the
inner treedef. -/
def tree_transpose (outer_treedef inner_treedef : TreeDef)
    (pytree_to_transpose : PyTree) : TransposeResult :=
  let flat := (tree_flatten ilNone pytree_to_transpose).1
  let treedef := (tree_flatten ilNone pytree_to_transpose).2
  let inner_size := inner_treedef.numLeaves
  let outer_size := outer_treedef.numLeaves
  if treedef.numLeaves ≠ inner_size * outer_size then
    .mismatch (TreeDef.compose inner_treedef outer_treedef)
  else
    let lol := (List.range outer_size).map
      (fun i => ((flat.drop (i * inner_size)).take inner_size))
    match mapOpt (fun row => tree_unflatten outer_treedef row) (zipAll lol) with
    | none => .unflattenFail
    | some subtrees =>
      match tree_unflatten inner_treedef subtrees with
      | none => .unflattenFail
      | some out => .ok out

/-- Hashable auxiliary metadata a one-level decomposition returns: `None`
for tuples, lists and `None` nodes, the key tuple for mappings, the
`(default_factory, keys)` pair for `defaultdict`, and the registered
auxiliary payload for custom nodes. -/
inductive AuxMeta : Type where
  | noneM
  | keysM (ks : List Nat)
  | facKeysM (fac : Nat) (ks : List Nat)
  | auxM (a : Nat)
  deriving DecidableEq, Repr

/-- Modelled from the spec: `default_registry.flatten_one_level` (C
extension, not under the given sources) — `none` for a value of an
unregistered type (an opaque leaf), otherwise the one-level children and
the hashable metadata.  Mapping children come out in sorted key order,
`OrderedDict` children in insertion order. -/
def flattenOneLevel : PyTree → Option (List PyTree × AuxMeta)
  | .leaf _ => none
  | .tupleN cs => some (cs.toList, .noneM)
  | .listN cs => some (cs.toList, .noneM)
  | .dictN es =>
    some ((sortByKey es.toList).map Prod.snd, .keysM ((sortByKey es.toList).map Prod.fst))
  | .odictN es => some (es.toList.map Prod.snd, .keysM (es.toList.map Prod.fst))
  | .ddictN fac es =>
    some ((sortByKey es.toList).map Prod.snd,
          .facKeysM fac ((sortByKey es.toList).map Prod.fst))
  | .noneN => some ([], .noneM)
  | .custom _ aux cs => some (cs.toList, .auxM aux)

/-- `flatten_one_level` (lines 774-802): the strict one-level decompose
primitive; `none` stands for the `ValueError` ("can't tree-flatten type",
the `UnrecognizedStructure` error kind) raised when the registry lookup
returns nothing. -/
def flatten_one_level (t : PyTree) : Option (List PyTree × AuxMeta) :=
  flattenOneLevel t

/-- Whether the runtime type of the value is registered as a pytree node
type (in the model every container constructor is registered; opaque
leaves are not). -/
def registered : PyTree → Bool
  | .leaf _ => false
  | _ => true

/-- `treedef_is_leaf` (lines 249-268): a treedef with a single node. -/
def treedef_is_leaf (td : TreeDef) : Bool :=
  td.numNodes == 1

/-- `treedef_is_strict_leaf` (lines 271-273): a single node that is also
a single leaf. -/
def treedef_is_strict_leaf (td : TreeDef) : Bool :=
  td.numNodes == 1 && td.numLeaves == 1

/-- One step of a key path, `BuiltInKeyEntry` (lines 892-927):
`SequenceKey`, `DictKey`, `GetAttrKey` or `FlattenedIndexKey` (attribute
names encoded as naturals). -/
inductive KeyEntry : Type where
  | seqKey (i : Nat)
  | dictKey (k : Nat)
  | getAttrKey (n : Nat)
  | flatIndexKey (i : Nat)
  deriving DecidableEq, Repr

/-- A key path: the addressing steps from the root to a leaf. -/
abbrev KeyPath := List KeyEntry

/-- `_child_keys` (lines 1368-1378): the key entries a node addresses its
one-level children with.  Dict children are keyed by sorted key;
`defaultdict` and `OrderedDict` by the handler registered at line 979/983,
which lists keys in insertion order; types without a keyed handler fall
back to positional `FlattenedIndexKey` entries; the leaf case is
unreachable (the source asserts its argument is not a strict leaf). -/
def childKeys : PyTree → List KeyEntry
  | .leaf _ => []
  | .tupleN cs => (List.range cs.toList.length).map KeyEntry.seqKey
  | .listN cs => (List.range cs.toList.length).map KeyEntry.seqKey
  | .dictN es => (sortByKey es.toList).map (fun p => KeyEntry.dictKey p.1)
  | .odictN es => es.toList.map (fun p => KeyEntry.dictKey p.1)
  | .ddictN _ es => es.toList.map (fun p => KeyEntry.dictKey p.1)
  | .noneN => []
  | .custom _ _ cs => (List.range cs.toList.length).map KeyEntry.flatIndexKey


/-- Prefix one key entry onto every path of a child's key-path results:
the accumulation step `(*key_path, k)` of `_generate_key_paths_`, applied
from the outside in (results are root-relative). -/
def prependKey (k : KeyEntry) (rs : List (KeyPath × PyTree)) : List (KeyPath × PyTree) :=
  rs.map (fun p => (k :: p.1, p.2))

/-- Assemble positional children's key-path results, addressing child `i`
with `mk i` — `i` counting from `start` as Python's `enumerate` does. -/
def posAssembleFrom (mk : Nat → KeyEntry) (start : Nat) :
    List (List (KeyPath × PyTree)) → List (KeyPath × PyTree)
  | [] => []
  | rs :: blocks => prependKey (mk start) rs ++ posAssembleFrom mk (start + 1) blocks

/-- Assemble positional children's key-path results, addressing child `i`
with `mk i`. -/
def posAssemble (mk : Nat → KeyEntry) (blocks : List (List (KeyPath × PyTree))) :
    List (KeyPath × PyTree) :=
  posAssembleFrom mk 0 blocks

/-- Assemble keyed children's key-path results, addressing each child
with its paired key. -/
def dictAssemble (blocks : List (Nat × List (KeyPath × PyTree))) :
    List (KeyPath × PyTree) :=
  (blocks.map (fun p => prependKey (KeyEntry.dictKey p.1) p.2)).flatten

/-- The keys of mapping entries, in insertion order. -/
def entKeys : PyEntries → List Nat
  | .nil => []
  | .cons k _ es => k :: entKeys es

mutual

/-- `_generate_key_paths_` (lines 1300-1330) with root-relative paths:
the source accumulates the path prefix on the way down, which is
equivalent to prefixing each node's key entry onto its child's results on
the way up, as done here.  `is_leaf` is consulted first; a type with a
keyed handler (`tuple`, `list`, `dict`, `defaultdict`, `OrderedDict`,
registered at lines 971-985) contributes `(key, child)` pairs — for
`defaultdict` the handler built at line 960 zips insertion-order keys
with the sorted-order children of `_registry[ty].to_iter`; a value the
registry cannot decompose is a leaf; remaining node types (`None`,
generic custom nodes) fall back to positional `FlattenedIndexKey`
addressing of their one-level children. -/
def genKP (il : PyTree → Bool) (t : PyTree) : List (KeyPath × PyTree) :=
  if il t then [([], t)] else
  match t with
  | .leaf v => [([], .leaf v)]
  | .tupleN cs => posAssemble KeyEntry.seqKey (genKPF il cs)
  | .listN cs => posAssemble KeyEntry.seqKey (genKPF il cs)
  | .dictN es => dictAssemble (sortByKey (genKPE il es))
  | .odictN es => dictAssemble (genKPE il es)
  | .ddictN _ es =>
    dictAssemble ((entKeys es).zip ((sortByKey (genKPE il es)).map Prod.snd))
  | .noneN => []
  | .custom _ _ cs => posAssemble KeyEntry.flatIndexKey (genKPF il cs)

/-- Key-path results of every tree of a forest. -/
def genKPF (il : PyTree → Bool) : PyForest → List (List (KeyPath × PyTree))
  | .nil => []
  | .cons c cs => genKP il c :: genKPF il cs

/-- Key-path results of every mapping entry, paired with its key. -/
def genKPE (il : PyTree → Bool) : PyEntries → List (Nat × List (KeyPath × PyTree))
  | .nil => []
  | .cons k c es => (k, genKP il c) :: genKPE il es

end

/-- `generate_key_paths` (lines 1292-1296): the `(KeyPath, leaf)` pairs of
a tree, one per leaf, in traversal order. -/
def generate_key_paths (il : PyTree → Bool) (t : PyTree) : List (KeyPath × PyTree) :=
  genKP il t

mutual

/-- The canonical form a flatten/unflatten round trip rebuilds: `dict` and
`defaultdict` entries in sorted key order (recursively), everything else
unchanged.  Two trees are equal under Python `==` — which ignores dict
insertion order — exactly when their canonical forms coincide. -/
def canon : PyTree → PyTree
  | .leaf v => .leaf v
  | .tupleN cs => .tupleN (PyForest.ofList (canonF cs))
  | .listN cs => .listN (PyForest.ofList (canonF cs))
  | .dictN es => .dictN (PyEntries.ofList (sortByKey (canonE es)))
  | .odictN es => .odictN (PyEntries.ofList (canonE es))
  | .ddictN fac es => .ddictN fac (PyEntries.ofList (sortByKey (canonE es)))
  | .noneN => .noneN
  | .custom tag aux cs => .custom tag aux (PyForest.ofList (canonF cs))

/-- Canonical forms of a forest's trees. -/
def canonF : PyForest → List PyTree
  | .nil => []
  | .cons c cs => canon c :: canonF cs

/-- Canonical forms of mapping entries' children. -/
def canonE : PyEntries → List (Nat × PyTree)
  | .nil => []
  | .cons k c es => (k, canon c) :: canonE es

end

/-- Structural equality of trees in the sense of Python `==`: equality of
canonical forms (mapping insertion order disregarded). -/
def pyEq (t1 t2 : PyTree) : Prop := canon t1 = canon t2

mutual

/-- Nesting depth of a tree: leaves at depth zero, a node one deeper than
its deepest child; bounds the recursion of the structural diagnostics. -/
def depthT : PyTree → Nat
  | .leaf _ => 0
  | .tupleN cs => 1 + depthF cs
  | .listN cs => 1 + depthF cs
  | .dictN es => 1 + depthE es
  | .odictN es => 1 + depthE es
  | .ddictN _ es => 1 + depthE es
  | .noneN => 0
  | .custom _ _ cs => 1 + depthF cs

/-- Maximum depth over a forest. -/
def depthF : PyForest → Nat
  | .nil => 0
  | .cons c cs => max (depthT c) (depthF cs)

/-- Maximum depth over mapping entries. -/
def depthE : PyEntries → Nat
  | .nil => 0
  | .cons _ c es => max (depthT c) (depthE es)

end

/-- Whether two values have the same Python runtime type (`type(t1) ==
type(t2)`): same constructor, and for custom registered nodes the same
registered class.  All opaque leaf payloads share one type in the model;
the comparison is reached only when at least one side is not a leaf. -/
def kindsMatch : PyTree → PyTree → Bool
  | .leaf _, .leaf _ => true
  | .tupleN _, .tupleN _ => true
  | .listN _, .listN _ => true
  | .dictN _, .dictN _ => true
  | .odictN _, .odictN _ => true
  | .ddictN _ _, .ddictN _ _ => true
  | .noneN, .noneN => true
  | .custom tag _ _, .custom tag2 _ _ => tag == tag2
  | _, _ => false

/-- Whether the value is a Python `list` or `tuple` (the
`isinstance(t1, (list, tuple))` special case of the diagnostics). -/
def isSeq : PyTree → Bool
  | .tupleN _ => true
  | .listN _ => true
  | _ => false

/-- What a structural-equality diagnostic reported at a path: differing
runtime types, differing sequence lengths, differing numbers of one-level
children, or differing node metadata. -/
inductive EqErrKind : Type where
  | typeDiff
  | lenDiff
  | childCountDiff
  | metaDiff
  deriving DecidableEq, Repr

/-- One yielded equality diagnostic, keeping the key path and the kind of
disagreement (the source's human-readable description strings are
omitted). -/
structure EqErr : Type where
  path : KeyPath
  kind : EqErrKind
  deriving DecidableEq, Repr

/-- `_equality_errors` (lines 835-889), recursion bounded by fuel (the
wrapper supplies more fuel than the trees are deep, so the bound is never
hit).  Check order: both sides strict leaves — no error; differing types;
differing `list`/`tuple` lengths; differing numbers of one-level
children; differing metadata; then the source asserts that the two nodes
give equal child keys (line 886) — `none` models the `AssertionError`
raised when they do not (consuming the generator then raises instead of
completing, discarding any further output); otherwise recurse into the
zipped children under the node's child keys, a raise in any child
propagating.  The one-level decomposition cannot fail here: equal
non-leaf types are decomposable. -/
def eqErrsFuel : Nat → KeyPath → (PyTree → Bool) → PyTree → PyTree → Option (List EqErr)
  | 0, _, _, _, _ => some []
  | n + 1, path, il, t1, t2 =>
    if treedef_is_strict_leaf (tree_structure il t1) &&
       treedef_is_strict_leaf (tree_structure il t2) then some []
    else if ¬ kindsMatch t1 t2 then some [⟨path, .typeDiff⟩]
    else
      match flattenOneLevel t1, flattenOneLevel t2 with
      | some (c1s, m1), some (c2s, m2) =>
        if isSeq t1 ∧ c1s.length ≠ c2s.length then some [⟨path, .lenDiff⟩]
        else if c1s.length ≠ c2s.length then some [⟨path, .childCountDiff⟩]
        else if m1 ≠ m2 then some [⟨path, .metaDiff⟩]
        else if childKeys t1 ≠ childKeys t2 then none
        else
          match mapOpt (fun p => eqErrsFuel n (path ++ [p.1]) il p.2.1 p.2.2)
              ((childKeys t1).zip (c1s.zip c2s)) with
          | none => none
          | some ls => some ls.flatten
      | _, _ => some []

/-- `equality_errors` (lines 813-832): the structural differences between
two trees, as a (possibly empty) list of diagnostics; `none` stands for
the run raising `AssertionError` out of the internal key assertion
instead of completing. -/
def equality_errors (il : PyTree → Bool) (t1 t2 : PyTree) : Option (List EqErr) :=
  eqErrsFuel (depthT t1 + depthT t2 + 1) [] il t1 t2

/-- What a prefix diagnostic reported at a path (the deferred
formatter closures of the source carry exactly this data plus message
text; only the rendering with a caller-supplied name is deferred). -/
inductive PrefixErrKind : Type where
  | typeDiff
  | lenDiff
  | childCountDiff
  | metaDiff
  deriving DecidableEq, Repr

/-- One deferred prefix diagnostic: the key path and the kind of
disagreement. -/
structure PrefixErr : Type where
  path : KeyPath
  kind : PrefixErrKind
  deriving DecidableEq, Repr

/-- `_prefix_error` (lines 1381-1477), recursion bounded by fuel (the
wrapper supplies more fuel than the prefix tree is deep).  A strict leaf
on the prefix side succeeds immediately; then differing types; then both
sides are decomposed one level; `list`/`tuple` prefixes report a length
disagreement, other node types a child-count disagreement; then differing
metadata; then the source asserts equal child keys (lines 1473-1475) —
`none` models the `AssertionError` raised when they differ; otherwise
recurse into zipped children — the source drops the `is_leaf` argument in
its recursive call (line 1477), so the recursion proceeds with no leaf
predicate. -/
def prefixErrsFuel : Nat → KeyPath → (PyTree → Bool) → PyTree → PyTree → Option (List PrefixErr)
  | 0, _, _, _, _ => some []
  | n + 1, path, il, prefix_tree, full_tree =>
    if treedef_is_strict_leaf (tree_structure il prefix_tree) then some []
    else if ¬ kindsMatch prefix_tree full_tree then some [⟨path, .typeDiff⟩]
    else
      match flattenOneLevel prefix_tree, flattenOneLevel full_tree with
      | some (pcs, pm), some (fcs, fm) =>
        if isSeq prefix_tree ∧ pcs.length ≠ fcs.length then some [⟨path, .lenDiff⟩]
        else if ¬ isSeq prefix_tree ∧ pcs.length ≠ fcs.length then
          some [⟨path, .childCountDiff⟩]
        else if pm ≠ fm then some [⟨path, .metaDiff⟩]
        else if childKeys prefix_tree ≠ childKeys full_tree then none
        else
          match mapOpt (fun p => prefixErrsFuel n (path ++ [p.1]) ilNone p.2.1 p.2.2)
              ((childKeys prefix_tree).zip (pcs.zip fcs)) with
          | none => none
          | some ls => some ls.flatten
      | _, _ => some []

/-- `prefix_errors` (lines 806-809): the deferred diagnostics verifying
the first tree is a valid coarser-or-equal structural prefix of the
second; `none` stands for the `list(...)` call raising `AssertionError`
out of the internal key assertion. -/
def prefix_errors (il : PyTree → Bool) (prefix_tree full_tree : PyTree) :
    Option (List PrefixErr) :=
  prefixErrsFuel (depthT prefix_tree + 1) [] il prefix_tree full_tree

example : prefix_errors ilNone
    (.listN (.cons (.leaf 1) (.cons (.leaf 2) .nil)))
    (.listN (.cons (.listN (.cons (.leaf 1) (.cons (.leaf 2) .nil)))
      (.cons (.listN (.cons (.leaf 3) (.cons (.leaf 4) .nil))) .nil))) = some [] := by decide

example : equality_errors ilNone
    (.listN (.cons (.leaf 1) .nil)) (.listN (.cons (.leaf 1) (.cons (.leaf 2) .nil))) =
    some [⟨[], .lenDiff⟩] := by decide

/-- A numeric tag for the Python runtime type of a value, injective across
the model's universe (custom registered classes are told apart by their
registration tag). -/
def pyKind : PyTree → Nat
  | .leaf _ => 0
  | .tupleN _ => 1
  | .listN _ => 2
  | .dictN _ => 3
  | .odictN _ => 4
  | .ddictN _ _ => 5
  | .noneN => 6
  | .custom tag _ _ => 7 + tag

/-- The numeric tag of the node type a treedef's root records. -/
def tdKind : TreeDef → Nat
  | .leaf => 0
  | .tupleN _ => 1
  | .listN _ => 2
  | .dictN _ => 3
  | .odictN _ => 4
  | .ddictN _ _ => 5
  | .noneN => 6
  | .custom tag _ _ => 7 + tag

theorem pyForest_toList_ofList (l : List PyTree) : (PyForest.ofList l).toList = l := by
  induction l with
  | nil => rfl
  | cons c cs ih => simp [PyForest.ofList, PyForest.toList, ih]

theorem pyEntries_toList_ofList (l : List (Nat × PyTree)) :
    (PyEntries.ofList l).toList = l := by
  induction l with
  | nil => rfl
  | cons p ps ih => simp [PyEntries.ofList, PyEntries.toList, ih]

theorem tdForest_toList_ofList (l : List TreeDef) : (TDForest.ofList l).toList = l := by
  induction l with
  | nil => rfl
  | cons t ts ih => simp [TDForest.ofList, TDForest.toList, ih]

theorem tdEntries_toList_ofList (l : List (Nat × TreeDef)) :
    (TDEntries.ofList l).toList = l := by
  induction l with
  | nil => rfl
  | cons p ps ih => simp [TDEntries.ofList, TDEntries.toList, ih]

theorem insertByKey_perm {α : Type} (p : Nat × α) (l : List (Nat × α)) :
    (insertByKey p l).Perm (p :: l) := by
  induction l with
  | nil => simp [insertByKey]
  | cons q qs ih =>
    by_cases h : p.1 ≤ q.1
    · simp [insertByKey, h]
    · simp only [insertByKey, if_neg h]
      exact (List.Perm.cons q ih).trans (List.Perm.swap p q qs)

theorem sortByKey_perm {α : Type} (l : List (Nat × α)) : (sortByKey l).Perm l := by
  induction l with
  | nil => simp [sortByKey]
  | cons p ps ih =>
    exact ((insertByKey_perm p (sortByKey ps)).trans (List.Perm.cons p ih))

theorem mem_sortByKey {α : Type} {q : Nat × α} {l : List (Nat × α)} :
    q ∈ sortByKey l ↔ q ∈ l :=
  (sortByKey_perm l).mem_iff

theorem insertByKey_map {α β : Type} (f : α → β) (p : Nat × α) (l : List (Nat × α)) :
    insertByKey (p.1, f p.2) (l.map (fun q => (q.1, f q.2))) =
      (insertByKey p l).map (fun q => (q.1, f q.2)) := by
  induction l with
  | nil => rfl
  | cons q qs ih =>
    by_cases h : p.1 ≤ q.1
    · simp [insertByKey, h]
    · simp [insertByKey, h, ih]

theorem sortByKey_map {α β : Type} (f : α → β) (l : List (Nat × α)) :
    sortByKey (l.map (fun q => (q.1, f q.2))) =
      (sortByKey l).map (fun q => (q.1, f q.2)) := by
  induction l with
  | nil => rfl
  | cons p ps ih => simp [sortByKey, ih, insertByKey_map]

theorem insertByKey_pairwise {α : Type} {p : Nat × α} {l : List (Nat × α)}
    (h : l.Pairwise (fun a b => a.1 ≤ b.1)) :
    (insertByKey p l).Pairwise (fun a b => a.1 ≤ b.1) := by
  induction l with
  | nil => simp [insertByKey]
  | cons q qs ih =>
    rcases List.pairwise_cons.1 h with ⟨hq, hqs⟩
    by_cases hle : p.1 ≤ q.1
    · rw [insertByKey, if_pos hle]
      refine List.pairwise_cons.2 ⟨?_, h⟩
      intro b hb
      rcases List.mem_cons.1 hb with rfl | hb
      · exact hle
      · exact le_trans hle (hq b hb)
    · rw [insertByKey, if_neg hle]
      refine List.pairwise_cons.2 ⟨?_, ih hqs⟩
      intro b hb
      have hb' : b = p ∨ b ∈ qs := by
        have := (insertByKey_perm p qs).mem_iff.1 hb
        simpa using this
      rcases hb' with rfl | hb'
      · omega
      · exact hq b hb'

theorem sortByKey_pairwise {α : Type} (l : List (Nat × α)) :
    (sortByKey l).Pairwise (fun a b => a.1 ≤ b.1) := by
  induction l with
  | nil => simp [sortByKey]
  | cons p ps ih => exact insertByKey_pairwise ih

theorem insertByKey_sorted_id {α : Type} {p : Nat × α} {l : List (Nat × α)}
    (h : ∀ b ∈ l, p.1 ≤ b.1) : insertByKey p l = p :: l := by
  cases l with
  | nil => rfl
  | cons q qs => simp [insertByKey, h q (by simp)]

theorem sortByKey_sorted_id {α : Type} {l : List (Nat × α)}
    (h : l.Pairwise (fun a b => a.1 ≤ b.1)) : sortByKey l = l := by
  induction l with
  | nil => rfl
  | cons p ps ih =>
    rcases List.pairwise_cons.1 h with ⟨hp, hps⟩
    rw [sortByKey, ih hps, insertByKey_sorted_id hp]

theorem eq_of_perm_strict {α : Type} {l1 l2 : List (Nat × α)}
    (hp : l1.Perm l2)
    (h1 : l1.Pairwise (fun a b => a.1 < b.1))
    (h2 : l2.Pairwise (fun a b => a.1 < b.1)) : l1 = l2 := by
  induction l1 generalizing l2 with
  | nil => exact (List.Perm.nil_eq hp).symm ▸ rfl
  | cons a t1 ih =>
    cases l2 with
    | nil => exact absurd hp.symm (by simp)
    | cons b t2 =>
      rcases List.pairwise_cons.1 h1 with ⟨ha, ht1⟩
      rcases List.pairwise_cons.1 h2 with ⟨hb, ht2⟩
      have hab : a = b := by
        have hmem : a ∈ b :: t2 := hp.mem_iff.1 (by simp)
        have hmem2 : b ∈ a :: t1 := hp.symm.mem_iff.1 (by simp)
        rcases List.mem_cons.1 hmem with h | h
        · exact h
        · rcases List.mem_cons.1 hmem2 with h' | h'
          · exact h'.symm
          · exact absurd (ha b h') (by have := hb a h; omega)
      subst hab
      have := ih (List.Perm.cons_inv hp) ht1 ht2
      rw [this]

theorem sortByKey_eq_of_perm {α : Type} {l1 l2 : List (Nat × α)}
    (hp : l1.Perm l2) (hnd : (l1.map Prod.fst).Nodup) :
    sortByKey l1 = sortByKey l2 := by
  have hperm : (sortByKey l1).Perm (sortByKey l2) :=
    (sortByKey_perm l1).trans (hp.trans (sortByKey_perm l2).symm)
  have hnd1 : ((sortByKey l1).map Prod.fst).Nodup :=
    (((sortByKey_perm l1).map Prod.fst).nodup_iff).2 hnd
  have hnd2 : ((sortByKey l2).map Prod.fst).Nodup :=
    ((hperm.map Prod.fst).nodup_iff).1 hnd1
  have strict : ∀ (l : List (Nat × α)), (l.map Prod.fst).Nodup →
      l.Pairwise (fun a b => a.1 ≤ b.1) → l.Pairwise (fun a b => a.1 < b.1) := by
    intro l hl hle
    have hne : l.Pairwise (fun a b => a.1 ≠ b.1) := List.pairwise_map.1 hl
    exact (hle.and hne).imp (fun h => lt_of_le_of_ne h.1 h.2)
  exact eq_of_perm_strict hperm
    (strict _ hnd1 (sortByKey_pairwise l1)) (strict _ hnd2 (sortByKey_pairwise l2))

theorem flattenF_eq (il : PyTree → Bool) : ∀ (cs : PyForest),
    flattenF il cs = cs.toList.map (flattenT il)
  | .nil => rfl
  | .cons c cs => by simp [flattenF, PyForest.toList, flattenF_eq il cs]

theorem flattenE_eq (il : PyTree → Bool) : ∀ (es : PyEntries),
    flattenE il es = es.toList.map (fun p => (p.1, flattenT il p.2))
  | .nil => rfl
  | .cons k c es => by simp [flattenE, PyEntries.toList, flattenE_eq il es]

theorem canonF_eq : ∀ (cs : PyForest), canonF cs = cs.toList.map canon
  | .nil => rfl
  | .cons c cs => by simp [canonF, PyForest.toList, canonF_eq cs]

theorem canonE_eq : ∀ (es : PyEntries),
    canonE es = es.toList.map (fun p => (p.1, canon p.2))
  | .nil => rfl
  | .cons k c es => by simp [canonE, PyEntries.toList, canonE_eq es]

theorem genKPF_eq (il : PyTree → Bool) : ∀ (cs : PyForest),
    genKPF il cs = cs.toList.map (genKP il)
  | .nil => rfl
  | .cons c cs => by simp [genKPF, PyForest.toList, genKPF_eq il cs]

theorem genKPE_eq (il : PyTree → Bool) : ∀ (es : PyEntries),
    genKPE il es = es.toList.map (fun p => (p.1, genKP il p.2))
  | .nil => rfl
  | .cons k c es => by simp [genKPE, PyEntries.toList, genKPE_eq il es]

theorem entKeys_eq : ∀ (es : PyEntries), entKeys es = es.toList.map Prod.fst
  | .nil => rfl
  | .cons k c es => by simp [entKeys, PyEntries.toList, entKeys_eq es]

theorem tdforest_numLeaves (rs : List (List PyTree × TreeDef))
    (h : ∀ r ∈ rs, r.1.length = r.2.numLeaves) :
    (TDForest.ofList (rs.map Prod.snd)).numLeaves = ((rs.map Prod.fst).flatten).length := by
  induction rs with
  | nil => rfl
  | cons r rs ih =>
    simp only [List.map_cons, TDForest.ofList, TDForest.numLeaves, List.flatten_cons,
      List.length_append]
    rw [ih (fun q hq => h q (by simp [hq])), h r (by simp)]

theorem tdentries_numLeaves (rs : List (Nat × (List PyTree × TreeDef)))
    (h : ∀ p ∈ rs, p.2.1.length = p.2.2.numLeaves) :
    (TDEntries.ofList (rs.map (fun p => (p.1, p.2.2)))).numLeaves =
      ((rs.map (fun p => p.2.1)).flatten).length := by
  induction rs with
  | nil => rfl
  | cons r rs ih =>
    simp only [List.map_cons, TDEntries.ofList, TDEntries.numLeaves, List.flatten_cons,
      List.length_append]
    rw [ih (fun q hq => h q (by simp [hq])), h r (by simp)]

theorem flattenT_pos (il : PyTree → Bool) (t : PyTree) (h : il t = true) :
    flattenT il t = ([t], .leaf) := by
  cases t <;> simp [flattenT, h]

mutual

/-- The leaf-count invariant on the flatten side: the leaf list of a
flattened tree is exactly as long as the treedef's `num_leaves`. -/
theorem flat_len_T (il : PyTree → Bool) (t : PyTree) :
    (flattenT il t).1.length = (flattenT il t).2.numLeaves := by
  by_cases hil : il t
  · rw [flattenT_pos il t hil]
    simp [TreeDef.numLeaves]
  · cases t with
    | leaf v => simp [flattenT, hil, TreeDef.numLeaves]
    | tupleN cs =>
      simp only [flattenT, hil, Bool.false_eq_true, if_false, TreeDef.numLeaves]
      exact (tdforest_numLeaves _ (flat_len_F il cs)).symm
    | listN cs =>
      simp only [flattenT, hil, Bool.false_eq_true, if_false, TreeDef.numLeaves]
      exact (tdforest_numLeaves _ (flat_len_F il cs)).symm
    | dictN es =>
      simp only [flattenT, hil, Bool.false_eq_true, if_false, TreeDef.numLeaves]
      exact (tdentries_numLeaves _
        (fun p hp => flat_len_E il es p (mem_sortByKey.1 hp))).symm
    | odictN es =>
      simp only [flattenT, hil, Bool.false_eq_true, if_false, TreeDef.numLeaves]
      exact (tdentries_numLeaves _ (flat_len_E il es)).symm
    | ddictN fac es =>
      simp only [flattenT, hil, Bool.false_eq_true, if_false, TreeDef.numLeaves]
      exact (tdentries_numLeaves _
        (fun p hp => flat_len_E il es p (mem_sortByKey.1 hp))).symm
    | noneN => simp [flattenT, hil, TreeDef.numLeaves]
    | custom tag aux cs =>
      simp only [flattenT, hil, Bool.false_eq_true, if_false, TreeDef.numLeaves]
      exact (tdforest_numLeaves _ (flat_len_F il cs)).symm

/-- Leaf-count invariant for every per-child flatten result of a forest. -/
theorem flat_len_F (il : PyTree → Bool) (cs : PyForest) :
    ∀ r ∈ flattenF il cs, r.1.length = r.2.numLeaves := by
  cases cs with
  | nil => intro r hr; cases hr
  | cons c cs =>
    intro r hr
    rcases List.mem_cons.1 hr with rfl | hr
    · exact flat_len_T il c
    · exact flat_len_F il cs r hr

/-- Leaf-count invariant for every per-entry flatten result of a mapping. -/
theorem flat_len_E (il : PyTree → Bool) (es : PyEntries) :
    ∀ p ∈ flattenE il es, p.2.1.length = p.2.2.numLeaves := by
  cases es with
  | nil => intro p hp; cases hp
  | cons k c es =>
    intro p hp
    rcases List.mem_cons.1 hp with rfl | hp
    · exact flat_len_T il c
    · exact flat_len_E il es p hp

end

mutual

/-- When enough leaves are supplied, the unflatten walk succeeds and
consumes exactly `num_leaves` of them. -/
theorem unflat_enough_T : ∀ (td : TreeDef) (ls : List PyTree),
    td.numLeaves ≤ ls.length →
    ∃ t, unflattenAux td ls = some (t, ls.drop td.numLeaves)
  | .leaf, ls => by
    intro h
    cases ls with
    | nil => simp [TreeDef.numLeaves] at h
    | cons l rest => exact ⟨l, by simp [unflattenAux, TreeDef.numLeaves]⟩
  | .tupleN ts, ls => by
    intro h
    obtain ⟨cs, hcs⟩ := unflat_enough_F ts ls h
    exact ⟨.tupleN cs, by simp [unflattenAux, hcs, TreeDef.numLeaves]⟩
  | .listN ts, ls => by
    intro h
    obtain ⟨cs, hcs⟩ := unflat_enough_F ts ls h
    exact ⟨.listN cs, by simp [unflattenAux, hcs, TreeDef.numLeaves]⟩
  | .dictN es, ls => by
    intro h
    obtain ⟨cs, hcs⟩ := unflat_enough_E es ls h
    exact ⟨.dictN cs, by simp [unflattenAux, hcs, TreeDef.numLeaves]⟩
  | .odictN es, ls => by
    intro h
    obtain ⟨cs, hcs⟩ := unflat_enough_E es ls h
    exact ⟨.odictN cs, by simp [unflattenAux, hcs, TreeDef.numLeaves]⟩
  | .ddictN fac es, ls => by
    intro h
    obtain ⟨cs, hcs⟩ := unflat_enough_E es ls h
    exact ⟨.ddictN fac cs, by simp [unflattenAux, hcs, TreeDef.numLeaves]⟩
  | .noneN, ls => by
    intro h
    exact ⟨.noneN, by simp [unflattenAux, TreeDef.numLeaves]⟩
  | .custom tag aux ts, ls => by
    intro h
    obtain ⟨cs, hcs⟩ := unflat_enough_F ts ls h
    exact ⟨.custom tag aux cs, by simp [unflattenAux, hcs, TreeDef.numLeaves]⟩

/-- Forest version of `unflat_enough_T`. -/
theorem unflat_enough_F : ∀ (ts : TDForest) (ls : List PyTree),
    ts.numLeaves ≤ ls.length →
    ∃ cs, unflattenF ts ls = some (cs, ls.drop ts.numLeaves)
  | .nil, ls => by
    intro h
    exact ⟨.nil, by simp [unflattenF, TDForest.numLeaves]⟩
  | .cons t ts, ls => by
    intro h
    simp only [TDForest.numLeaves] at h
    obtain ⟨c, hc⟩ := unflat_enough_T t ls (by omega)
    obtain ⟨cs, hcs⟩ := unflat_enough_F ts (ls.drop t.numLeaves)
      (by simp [List.length_drop]; omega)
    refine ⟨.cons c cs, ?_⟩
    simp [unflattenF, hc, hcs, TDForest.numLeaves, List.drop_drop, Nat.add_comm]

/-- Entries version of `unflat_enough_T`. -/
theorem unflat_enough_E : ∀ (es : TDEntries) (ls : List PyTree),
    es.numLeaves ≤ ls.length →
    ∃ cs, unflattenE es ls = some (cs, ls.drop es.numLeaves)
  | .nil, ls => by
    intro h
    exact ⟨.nil, by simp [unflattenE, TDEntries.numLeaves]⟩
  | .cons k t es, ls => by
    intro h
    simp only [TDEntries.numLeaves] at h
    obtain ⟨c, hc⟩ := unflat_enough_T t ls (by omega)
    obtain ⟨cs, hcs⟩ := unflat_enough_E es (ls.drop t.numLeaves)
      (by simp [List.length_drop]; omega)
    refine ⟨.cons k c cs, ?_⟩
    simp [unflattenE, hc, hcs, TDEntries.numLeaves, List.drop_drop, Nat.add_comm]

end

mutual

/-- With too few leaves the unflatten walk fails. -/
theorem unflat_short_T : ∀ (td : TreeDef) (ls : List PyTree),
    ls.length < td.numLeaves → unflattenAux td ls = none
  | .leaf, ls => by
    intro h
    cases ls with
    | nil => simp [unflattenAux]
    | cons l rest => simp [TreeDef.numLeaves] at h
  | .tupleN ts, ls => by
    intro h
    simp [unflattenAux, unflat_short_F ts ls (by simpa [TreeDef.numLeaves] using h)]
  | .listN ts, ls => by
    intro h
    simp [unflattenAux, unflat_short_F ts ls (by simpa [TreeDef.numLeaves] using h)]
  | .dictN es, ls => by
    intro h
    simp [unflattenAux, unflat_short_E es ls (by simpa [TreeDef.numLeaves] using h)]
  | .odictN es, ls => by
    intro h
    simp [unflattenAux, unflat_short_E es ls (by simpa [TreeDef.numLeaves] using h)]
  | .ddictN fac es, ls => by
    intro h
    simp [unflattenAux, unflat_short_E es ls (by simpa [TreeDef.numLeaves] using h)]
  | .noneN, ls => by
    intro h
    simp [TreeDef.numLeaves] at h
  | .custom tag aux ts, ls => by
    intro h
    simp [unflattenAux, unflat_short_F ts ls (by simpa [TreeDef.numLeaves] using h)]

/-- Forest version of `unflat_short_T`. -/
theorem unflat_short_F : ∀ (ts : TDForest) (ls : List PyTree),
    ls.length < ts.numLeaves → unflattenF ts ls = none
  | .nil, ls => by
    intro h
    simp [TDForest.numLeaves] at h
  | .cons t ts, ls => by
    intro h
    simp only [TDForest.numLeaves] at h
    by_cases hcase : t.numLeaves ≤ ls.length
    · obtain ⟨c, hc⟩ := unflat_enough_T t ls hcase
      have : (ls.drop t.numLeaves).length < ts.numLeaves := by
        simp [List.length_drop]; omega
      simp [unflattenF, hc, unflat_short_F ts _ this]
    · simp [unflattenF, unflat_short_T t ls (by omega)]

/-- Entries version of `unflat_short_T`. -/
theorem unflat_short_E : ∀ (es : TDEntries) (ls : List PyTree),
    ls.length < es.numLeaves → unflattenE es ls = none
  | .nil, ls => by
    intro h
    simp [TDEntries.numLeaves] at h
  | .cons k t es, ls => by
    intro h
    simp only [TDEntries.numLeaves] at h
    by_cases hcase : t.numLeaves ≤ ls.length
    · obtain ⟨c, hc⟩ := unflat_enough_T t ls hcase
      have : (ls.drop t.numLeaves).length < es.numLeaves := by
        simp [List.length_drop]; omega
      simp [unflattenE, hc, unflat_short_E es _ this]
    · simp [unflattenE, unflat_short_T t ls (by omega)]

end

/-- `tree_unflatten` succeeds exactly when the leaf count matches. -/
theorem tree_unflatten_none_iff (td : TreeDef) (ls : List PyTree) :
    tree_unflatten td ls = none ↔ ls.length ≠ td.numLeaves := by
  constructor
  · intro h hlen
    obtain ⟨t, ht⟩ := unflat_enough_T td ls (le_of_eq hlen.symm)
    rw [tree_unflatten, ht] at h
    have : ls.drop td.numLeaves = [] := by
      apply List.eq_nil_of_length_eq_zero
      simp [List.length_drop, hlen]
    rw [this] at h
    simp at h
  · intro hne
    by_cases hlt : ls.length < td.numLeaves
    · rw [tree_unflatten, unflat_short_T td ls hlt]
    · have hgt : td.numLeaves < ls.length := by omega
      obtain ⟨t, ht⟩ := unflat_enough_T td ls (by omega)
      rw [tree_unflatten, ht]
      have : ls.drop td.numLeaves ≠ [] := by
        intro hnil
        have := congrArg List.length hnil
        simp [List.length_drop] at this
        omega
      cases hdrop : ls.drop td.numLeaves with
      | nil => exact absurd hdrop this
      | cons a rest => simp [hdrop]

theorem unflattenF_assembled (l : List PyTree) (extra : List PyTree)
    (h : ∀ c ∈ l, ∀ ex, unflattenAux (flattenT ilNone c).2 ((flattenT ilNone c).1 ++ ex) =
      some (canon c, ex)) :
    unflattenF (TDForest.ofList ((l.map (flattenT ilNone)).map Prod.snd))
      (((l.map (flattenT ilNone)).map Prod.fst).flatten ++ extra) =
    some (PyForest.ofList (l.map canon), extra) := by
  induction l with
  | nil => simp [TDForest.ofList, unflattenF, PyForest.ofList]
  | cons c l ih =>
    simp only [List.map_cons, TDForest.ofList, List.flatten_cons, List.append_assoc,
      unflattenF, PyForest.ofList]
    simp only [h c (by simp), ih (fun c' hc' ex => h c' (by simp [hc']) ex)]

theorem unflattenE_assembled (l : List (Nat × PyTree)) (extra : List PyTree)
    (h : ∀ p ∈ l, ∀ ex, unflattenAux (flattenT ilNone p.2).2 ((flattenT ilNone p.2).1 ++ ex) =
      some (canon p.2, ex)) :
    unflattenE (TDEntries.ofList
        ((l.map (fun p => (p.1, flattenT ilNone p.2))).map (fun p => (p.1, p.2.2))))
      (((l.map (fun p => (p.1, flattenT ilNone p.2))).map (fun p => p.2.1)).flatten ++ extra) =
    some (PyEntries.ofList (l.map (fun p => (p.1, canon p.2))), extra) := by
  induction l with
  | nil => simp [TDEntries.ofList, unflattenE, PyEntries.ofList]
  | cons p l ih =>
    simp only [List.map_cons, TDEntries.ofList, List.flatten_cons, List.append_assoc,
      unflattenE, PyEntries.ofList]
    simp only [h p (by simp), ih (fun p' hp' ex => h p' (by simp [hp']) ex)]

mutual

/-- Round trip at the engine level: unflattening a flattened tree (plus a
trailing cursor) rebuilds the tree's canonical form and leaves the
trailing cursor untouched. -/
theorem rtT : ∀ (t : PyTree) (extra : List PyTree),
    unflattenAux (flattenT ilNone t).2 ((flattenT ilNone t).1 ++ extra) =
      some (canon t, extra)
  | .leaf v, extra => by
    simp [flattenT, ilNone, unflattenAux, canon]
  | .tupleN cs, extra => by
    rw [show flattenT ilNone (.tupleN cs) =
      (((cs.toList.map (flattenT ilNone)).map Prod.fst).flatten,
       .tupleN (TDForest.ofList ((cs.toList.map (flattenT ilNone)).map Prod.snd)))
      from by simp [flattenT, ilNone, flattenF_eq]]
    simp only [unflattenAux, unflattenF_assembled cs.toList extra (rtF cs), canon,
      canonF_eq]
  | .listN cs, extra => by
    rw [show flattenT ilNone (.listN cs) =
      (((cs.toList.map (flattenT ilNone)).map Prod.fst).flatten,
       .listN (TDForest.ofList ((cs.toList.map (flattenT ilNone)).map Prod.snd)))
      from by simp [flattenT, ilNone, flattenF_eq]]
    simp only [unflattenAux, unflattenF_assembled cs.toList extra (rtF cs), canon,
      canonF_eq]
  | .dictN es, extra => by
    rw [show flattenT ilNone (.dictN es) =
      ((((sortByKey es.toList).map (fun p => (p.1, flattenT ilNone p.2))).map
          (fun p => p.2.1)).flatten,
       .dictN (TDEntries.ofList (((sortByKey es.toList).map
          (fun p => (p.1, flattenT ilNone p.2))).map (fun p => (p.1, p.2.2)))))
      from by simp [flattenT, ilNone, flattenE_eq, sortByKey_map]]
    have hmem : ∀ p ∈ sortByKey es.toList, ∀ ex,
        unflattenAux (flattenT ilNone p.2).2 ((flattenT ilNone p.2).1 ++ ex) =
          some (canon p.2, ex) := fun p hp => rtE es p (mem_sortByKey.1 hp)
    simp only [unflattenAux, unflattenE_assembled (sortByKey es.toList) extra hmem,
      canon, canonE_eq, sortByKey_map]
  | .odictN es, extra => by
    rw [show flattenT ilNone (.odictN es) =
      (((es.toList.map (fun p => (p.1, flattenT ilNone p.2))).map
          (fun p => p.2.1)).flatten,
       .odictN (TDEntries.ofList ((es.toList.map
          (fun p => (p.1, flattenT ilNone p.2))).map (fun p => (p.1, p.2.2)))))
      from by simp [flattenT, ilNone, flattenE_eq]]
    simp only [unflattenAux, unflattenE_assembled es.toList extra (rtE es),
      canon, canonE_eq]
  | .ddictN fac es, extra => by
    rw [show flattenT ilNone (.ddictN fac es) =
      ((((sortByKey es.toList).map (fun p => (p.1, flattenT ilNone p.2))).map
          (fun p => p.2.1)).flatten,
       .ddictN fac (TDEntries.ofList (((sortByKey es.toList).map
          (fun p => (p.1, flattenT ilNone p.2))).map (fun p => (p.1, p.2.2)))))
      from by simp [flattenT, ilNone, flattenE_eq, sortByKey_map]]
    have hmem : ∀ p ∈ sortByKey es.toList, ∀ ex,
        unflattenAux (flattenT ilNone p.2).2 ((flattenT ilNone p.2).1 ++ ex) =
          some (canon p.2, ex) := fun p hp => rtE es p (mem_sortByKey.1 hp)
    simp only [unflattenAux, unflattenE_assembled (sortByKey es.toList) extra hmem,
      canon, canonE_eq, sortByKey_map]
  | .noneN, extra => by
    simp [flattenT, ilNone, unflattenAux, canon]
  | .custom tag aux cs, extra => by
    rw [show flattenT ilNone (.custom tag aux cs) =
      (((cs.toList.map (flattenT ilNone)).map Prod.fst).flatten,
       .custom tag aux (TDForest.ofList ((cs.toList.map (flattenT ilNone)).map Prod.snd)))
      from by simp [flattenT, ilNone, flattenF_eq]]
    simp only [unflattenAux, unflattenF_assembled cs.toList extra (rtF cs), canon,
      canonF_eq]

/-- Round trip for every member of a forest. -/
theorem rtF : ∀ (cs : PyForest), ∀ c ∈ cs.toList, ∀ extra,
    unflattenAux (flattenT ilNone c).2 ((flattenT ilNone c).1 ++ extra) =
      some (canon c, extra)
  | .nil => by intro c hc; cases hc
  | .cons c cs => by
    intro c' hc' extra
    rcases List.mem_cons.1 hc' with rfl | hc'
    · exact rtT c' extra
    · exact rtF cs c' hc' extra

/-- Round trip for every member child of mapping entries. -/
theorem rtE : ∀ (es : PyEntries), ∀ p ∈ es.toList, ∀ extra,
    unflattenAux (flattenT ilNone p.2).2 ((flattenT ilNone p.2).1 ++ extra) =
      some (canon p.2, extra)
  | .nil => by intro p hp; cases hp
  | .cons k c es => by
    intro p hp extra
    rcases List.mem_cons.1 hp with rfl | hp
    · exact rtT c extra
    · exact rtE es p hp extra

end

/-- Round trip through the exported wrappers: unflattening a flattened
tree rebuilds its canonical form. -/
theorem roundtrip_canon (t : PyTree) :
    tree_unflatten (tree_flatten ilNone t).2 (tree_flatten ilNone t).1 = some (canon t) := by
  have := rtT t []
  rw [List.append_nil] at this
  rw [tree_unflatten, tree_flatten, this]

theorem map_canon_twice (l : List PyTree) (h : ∀ c ∈ l, canon (canon c) = canon c) :
    (l.map canon).map canon = l.map canon := by
  rw [List.map_map]
  apply List.map_congr_left
  intro c hc
  simpa using h c hc

theorem map_canonPair_twice (l : List (Nat × PyTree))
    (h : ∀ p ∈ l, canon (canon p.2) = canon p.2) :
    (l.map (fun p => (p.1, canon p.2))).map (fun p => (p.1, canon p.2)) =
      l.map (fun p => (p.1, canon p.2)) := by
  rw [List.map_map]
  apply List.map_congr_left
  intro p hp
  simpa using h p hp

mutual

/-- Canonicalization is idempotent. -/
theorem canon_idem : ∀ (t : PyTree), canon (canon t) = canon t
  | .leaf v => rfl
  | .tupleN cs => by
    simp only [canon, canonF_eq, pyForest_toList_ofList]
    rw [map_canon_twice cs.toList (canonF_mem cs)]
  | .listN cs => by
    simp only [canon, canonF_eq, pyForest_toList_ofList]
    rw [map_canon_twice cs.toList (canonF_mem cs)]
  | .dictN es => by
    simp only [canon, canonE_eq, pyEntries_toList_ofList]
    rw [← sortByKey_map, map_canonPair_twice es.toList (canonE_mem es),
      sortByKey_sorted_id (sortByKey_pairwise _)]
  | .odictN es => by
    simp only [canon, canonE_eq, pyEntries_toList_ofList]
    rw [map_canonPair_twice es.toList (canonE_mem es)]
  | .ddictN fac es => by
    simp only [canon, canonE_eq, pyEntries_toList_ofList]
    rw [← sortByKey_map, map_canonPair_twice es.toList (canonE_mem es),
      sortByKey_sorted_id (sortByKey_pairwise _)]
  | .noneN => rfl
  | .custom tag aux cs => by
    simp only [canon, canonF_eq, pyForest_toList_ofList]
    rw [map_canon_twice cs.toList (canonF_mem cs)]

/-- Idempotence for every member of a forest. -/
theorem canonF_mem : ∀ (cs : PyForest), ∀ c ∈ cs.toList, canon (canon c) = canon c
  | .nil => by intro c hc; cases hc
  | .cons c cs => by
    intro c' hc'
    rcases List.mem_cons.1 hc' with rfl | hc'
    · exact canon_idem c'
    · exact canonF_mem cs c' hc'

/-- Idempotence for every member child of mapping entries. -/
theorem canonE_mem : ∀ (es : PyEntries), ∀ p ∈ es.toList, canon (canon p.2) = canon p.2
  | .nil => by intro p hp; cases hp
  | .cons k c es => by
    intro p hp
    rcases List.mem_cons.1 hp with rfl | hp
    · exact canon_idem c
    · exact canonE_mem es p hp

end

theorem prependKey_map_snd (k : KeyEntry) (rs : List (KeyPath × PyTree)) :
    (prependKey k rs).map Prod.snd = rs.map Prod.snd := by
  simp [prependKey, List.map_map, Function.comp_def]

theorem posAssembleFrom_map_snd (mk : Nat → KeyEntry) :
    ∀ (start : Nat) (blocks : List (List (KeyPath × PyTree))),
    (posAssembleFrom mk start blocks).map Prod.snd =
      (blocks.map (fun rs => rs.map Prod.snd)).flatten
  | _, [] => rfl
  | start, rs :: blocks => by
    simp only [posAssembleFrom, List.map_append, List.map_cons, List.flatten_cons,
      prependKey_map_snd, posAssembleFrom_map_snd mk (start + 1) blocks]

theorem posAssemble_map_snd (mk : Nat → KeyEntry) (blocks : List (List (KeyPath × PyTree))) :
    (posAssemble mk blocks).map Prod.snd =
      (blocks.map (fun rs => rs.map Prod.snd)).flatten :=
  posAssembleFrom_map_snd mk 0 blocks

theorem dictAssemble_map_snd (blocks : List (Nat × List (KeyPath × PyTree))) :
    (dictAssemble blocks).map Prod.snd =
      (blocks.map (fun p => p.2.map Prod.snd)).flatten := by
  simp only [dictAssemble, List.map_flatten, List.map_map]
  congr 1
  apply List.map_congr_left
  intro p _
  simp [prependKey_map_snd]

theorem zip_blocks_map_snd (ks : List Nat) (bs : List (List (KeyPath × PyTree)))
    (h : bs.length ≤ ks.length) :
    (ks.zip bs).map (fun p => p.2.map Prod.snd) = bs.map (fun rs => rs.map Prod.snd) := by
  have h1 : (ks.zip bs).map (fun p => p.2.map Prod.snd) =
      ((ks.zip bs).map Prod.snd).map (fun rs => rs.map Prod.snd) := by
    simp [List.map_map, Function.comp_def]
  rw [h1, List.map_snd_zip ks bs h]

theorem genKP_pos (il : PyTree → Bool) (t : PyTree) (h : il t = true) :
    genKP il t = [([], t)] := by
  cases t <;> simp [genKP, h]

mutual

/-- The leaves the key-path generator yields are exactly the flatten
engine's leaves, in the same traversal order. -/
theorem kpT (il : PyTree → Bool) (t : PyTree) :
    (genKP il t).map Prod.snd = (flattenT il t).1 := by
  by_cases hil : il t
  · rw [genKP_pos il t hil, flattenT_pos il t hil]
    rfl
  · cases t with
    | leaf v => simp [genKP, flattenT, hil]
    | tupleN cs =>
      simp only [genKP, flattenT, hil, Bool.false_eq_true, if_false,
        posAssemble_map_snd, genKPF_eq, flattenF_eq, List.map_map]
      congr 1
      apply List.map_congr_left
      intro c hc
      simpa using kpF il cs c hc
    | listN cs =>
      simp only [genKP, flattenT, hil, Bool.false_eq_true, if_false,
        posAssemble_map_snd, genKPF_eq, flattenF_eq, List.map_map]
      congr 1
      apply List.map_congr_left
      intro c hc
      simpa using kpF il cs c hc
    | dictN es =>
      simp only [genKP, flattenT, hil, Bool.false_eq_true, if_false,
        dictAssemble_map_snd, genKPE_eq, flattenE_eq, sortByKey_map, List.map_map]
      congr 1
      apply List.map_congr_left
      intro p hp
      simpa using kpE il es p (mem_sortByKey.1 hp)
    | odictN es =>
      simp only [genKP, flattenT, hil, Bool.false_eq_true, if_false,
        dictAssemble_map_snd, genKPE_eq, flattenE_eq, List.map_map]
      congr 1
      apply List.map_congr_left
      intro p hp
      simpa using kpE il es p hp
    | ddictN fac es =>
      simp only [genKP, flattenT, hil, Bool.false_eq_true, if_false,
        dictAssemble_map_snd, genKPE_eq, flattenE_eq, sortByKey_map, List.map_map]
      rw [zip_blocks_map_snd _ _ (by
        have hlen : (sortByKey es.toList).length = es.toList.length :=
          (sortByKey_perm es.toList).length_eq
        simp [entKeys_eq, hlen])]
      simp only [List.map_map]
      congr 1
      apply List.map_congr_left
      intro p hp
      simpa using kpE il es p (mem_sortByKey.1 hp)
    | noneN => simp [genKP, flattenT, hil]
    | custom tag aux cs =>
      simp only [genKP, flattenT, hil, Bool.false_eq_true, if_false,
        posAssemble_map_snd, genKPF_eq, flattenF_eq, List.map_map]
      congr 1
      apply List.map_congr_left
      intro c hc
      simpa using kpF il cs c hc

/-- Key-path/flatten leaf agreement for every member of a forest. -/
theorem kpF (il : PyTree → Bool) (cs : PyForest) :
    ∀ c ∈ cs.toList, (genKP il c).map Prod.snd = (flattenT il c).1 := by
  cases cs with
  | nil => intro c hc; cases hc
  | cons c cs =>
    intro c' hc'
    rcases List.mem_cons.1 hc' with rfl | hc'
    · exact kpT il c'
    · exact kpF il cs c' hc'

/-- Key-path/flatten leaf agreement for every member child of entries. -/
theorem kpE (il : PyTree → Bool) (es : PyEntries) :
    ∀ p ∈ es.toList, (genKP il p.2).map Prod.snd = (flattenT il p.2).1 := by
  cases es with
  | nil => intro p hp; cases hp
  | cons k c es =>
    intro p hp
    rcases List.mem_cons.1 hp with rfl | hp
    · exact kpT il c
    · exact kpE il es p hp

end


mutual

/-- A successful `flatten_up_to` yields one leaf slot per treedef leaf. -/
theorem upto_len_T : ∀ (td : TreeDef) (r : PyTree) (ls : List PyTree),
    flattenUpTo td r = some ls → ls.length = td.numLeaves
  | .leaf, r, ls => by
    intro h
    simp only [flattenUpTo] at h
    cases h
    simp [TreeDef.numLeaves]
  | .tupleN ts, r, ls => by
    intro h
    cases r <;> simp only [flattenUpTo] at h <;> try exact Option.noConfusion h
    next cs =>
      simpa [TreeDef.numLeaves] using upto_len_F ts cs.toList ls h
  | .listN ts, r, ls => by
    intro h
    cases r <;> simp only [flattenUpTo] at h <;> try exact Option.noConfusion h
    next cs =>
      simpa [TreeDef.numLeaves] using upto_len_F ts cs.toList ls h
  | .dictN es, r, ls => by
    intro h
    cases r <;> simp only [flattenUpTo] at h <;> try exact Option.noConfusion h
    next ses =>
      simpa [TreeDef.numLeaves] using upto_len_E es (sortByKey ses.toList) ls h
  | .odictN es, r, ls => by
    intro h
    cases r <;> simp only [flattenUpTo] at h <;> try exact Option.noConfusion h
    next ses =>
      simpa [TreeDef.numLeaves] using upto_len_E es ses.toList ls h
  | .ddictN fac es, r, ls => by
    intro h
    cases r <;> simp only [flattenUpTo] at h <;> try exact Option.noConfusion h
    next fac2 ses =>
      by_cases hfac : fac = fac2
      · rw [if_pos hfac] at h
        simpa [TreeDef.numLeaves] using upto_len_E es (sortByKey ses.toList) ls h
      · rw [if_neg hfac] at h
        exact Option.noConfusion h
  | .noneN, r, ls => by
    intro h
    cases r <;> simp only [flattenUpTo] at h <;> try exact Option.noConfusion h
    cases h
    simp [TreeDef.numLeaves]
  | .custom tag aux ts, r, ls => by
    intro h
    cases r <;> simp only [flattenUpTo] at h <;> try exact Option.noConfusion h
    next tag2 aux2 cs =>
      by_cases htag : tag = tag2 ∧ aux = aux2
      · rw [if_pos htag] at h
        simpa [TreeDef.numLeaves] using upto_len_F ts cs.toList ls h
      · rw [if_neg htag] at h
        exact Option.noConfusion h

/-- Forest version of `upto_len_T`. -/
theorem upto_len_F : ∀ (ts : TDForest) (rs : List PyTree) (ls : List PyTree),
    flattenUpToF ts rs = some ls → ls.length = ts.numLeaves
  | .nil, rs, ls => by
    intro h
    cases rs <;> simp only [flattenUpToF] at h
    · cases h
      simp [TDForest.numLeaves]
    · exact Option.noConfusion h
  | .cons t ts, rs, ls => by
    intro h
    cases rs with
    | nil => simp only [flattenUpToF] at h; exact Option.noConfusion h
    | cons c cs =>
      simp only [flattenUpToF] at h
      cases h1 : flattenUpTo t c with
      | none => rw [h1] at h; exact Option.noConfusion h
      | some l1 =>
        rw [h1] at h
        cases h2 : flattenUpToF ts cs with
        | none => rw [h2] at h; exact Option.noConfusion h
        | some l2 =>
          rw [h2] at h
          cases h
          simp [TDForest.numLeaves, upto_len_T t c l1 h1, upto_len_F ts cs l2 h2]

/-- Entries version of `upto_len_T`. -/
theorem upto_len_E : ∀ (es : TDEntries) (rs : List (Nat × PyTree)) (ls : List PyTree),
    flattenUpToE es rs = some ls → ls.length = es.numLeaves
  | .nil, rs, ls => by
    intro h
    cases rs <;> simp only [flattenUpToE] at h
    · cases h
      simp [TDEntries.numLeaves]
    · exact Option.noConfusion h
  | .cons k t es, rs, ls => by
    intro h
    cases rs with
    | nil => simp only [flattenUpToE] at h; exact Option.noConfusion h
    | cons p ps =>
      simp only [flattenUpToE] at h
      by_cases hk : k = p.1
      · rw [if_pos hk] at h
        cases h1 : flattenUpTo t p.2 with
        | none => rw [h1] at h; exact Option.noConfusion h
        | some l1 =>
          rw [h1] at h
          cases h2 : flattenUpToE es ps with
          | none => rw [h2] at h; exact Option.noConfusion h
          | some l2 =>
            rw [h2] at h
            cases h
            simp [TDEntries.numLeaves, upto_len_T t p.2 l1 h1, upto_len_E es ps l2 h2]
      · rw [if_neg hk] at h
        exact Option.noConfusion h

end

theorem zipLen_const (n : Nat) : ∀ (xss : List (List PyTree)),
    (∀ l ∈ xss, l.length = n) → xss ≠ [] → zipLen xss = n
  | [], h, hne => absurd rfl hne
  | [l], h, _ => h l (by simp)
  | l :: l2 :: xss, h, _ => by
    have : zipLen (l2 :: xss) = n :=
      zipLen_const n (l2 :: xss) (fun l' hl' => h l' (by simp [hl'])) (by simp)
    simp [zipLen, this, h l (by simp)]

theorem zipAll_length (xss : List (List PyTree)) : (zipAll xss).length = zipLen xss := by
  simp [zipAll]

theorem mapOpt_none_iff {α β : Type} (f : α → Option β) :
    ∀ (l : List α), mapOpt f l = none ↔ ∃ r ∈ l, f r = none := by
  intro l
  induction l with
  | nil => simp [mapOpt]
  | cons x xs ih =>
    simp only [mapOpt]
    cases hx : f x with
    | none => simp [hx]
    | some y =>
      cases hxs : mapOpt f xs with
      | none =>
        simp only []
        constructor
        · intro _
          rcases ih.1 hxs with ⟨r, hr, hfr⟩
          exact ⟨r, by simp [hr], hfr⟩
        · intro _
          trivial
      | some ys =>
        simp only []
        constructor
        · intro hcontra
          exact Option.noConfusion hcontra
        · intro ⟨r, hr, hfr⟩
          rcases List.mem_cons.1 hr with rfl | hr
          · rw [hx] at hfr
            exact Option.noConfusion hfr
          · have := ih.2 ⟨r, hr, hfr⟩
            rw [hxs] at this
            exact Option.noConfusion this

theorem mapOpt_some_mem {α β : Type} (f : α → Option β) :
    ∀ (l : List α) (ys : List β), mapOpt f l = some ys →
    ∀ y ∈ ys, ∃ r ∈ l, f r = some y := by
  intro l
  induction l with
  | nil =>
    intro ys h y hy
    simp only [mapOpt] at h
    cases h
    cases hy
  | cons x xs ih =>
    intro ys h y hy
    simp only [mapOpt] at h
    cases hx : f x with
    | none => rw [hx] at h; exact Option.noConfusion h
    | some y1 =>
      rw [hx] at h
      cases hxs : mapOpt f xs with
      | none => rw [hxs] at h; exact Option.noConfusion h
      | some ys1 =>
        rw [hxs] at h
        cases h
        rcases List.mem_cons.1 hy with rfl | hy
        · exact ⟨x, by simp, hx⟩
        · rcases ih ys1 hxs y hy with ⟨r, hr, hfr⟩
          exact ⟨r, by simp [hr], hfr⟩

theorem mapOpt_some_forall {α β : Type} (f : α → Option β) :
    ∀ (l : List α) (ys : List β), mapOpt f l = some ys →
    ∀ a ∈ l, ∃ y ∈ ys, f a = some y := by
  intro l
  induction l with
  | nil =>
    intro ys h a ha
    cases ha
  | cons x xs ih =>
    intro ys h a ha
    simp only [mapOpt] at h
    cases hx : f x with
    | none => rw [hx] at h; exact Option.noConfusion h
    | some y1 =>
      rw [hx] at h
      cases hxs : mapOpt f xs with
      | none => rw [hxs] at h; exact Option.noConfusion h
      | some ys1 =>
        rw [hxs] at h
        cases h
        rcases List.mem_cons.1 ha with rfl | ha
        · exact ⟨y1, by simp, hx⟩
        · rcases ih ys1 hxs a ha with ⟨y, hy, hfy⟩
          exact ⟨y, by simp [hy], hfy⟩

/-- `tree_map` fails exactly when some `rest` tree diverges from the
primary treedef before the treedef reaches a leaf. -/
theorem tree_map_none_iff (f : List PyTree → PyTree) (il : PyTree → Bool)
    (t : PyTree) (rest : List PyTree) :
    tree_map f il t rest = none ↔
      ∃ r ∈ rest, flattenUpTo (tree_structure il t) r = none := by
  rw [tree_map, tree_structure]
  cases hm : mapOpt (fun r => flattenUpTo (tree_flatten il t).2 r) rest with
  | none =>
    simp only [hm]
    constructor
    · intro _
      exact (mapOpt_none_iff _ rest).1 hm
    · intro _
      trivial
  | some restLs =>
    simp only [hm]
    have hlen : ∀ l ∈ (tree_flatten il t).1 :: restLs,
        l.length = (tree_flatten il t).2.numLeaves := by
      intro l hl
      rcases List.mem_cons.1 hl with rfl | hl
      · exact flat_len_T il t
      · rcases mapOpt_some_mem _ rest restLs hm l hl with ⟨r, _, hfr⟩
        exact upto_len_T _ r l hfr
    have hzl : zipLen ((tree_flatten il t).1 :: restLs) =
        (tree_flatten il t).2.numLeaves :=
      zipLen_const _ _ hlen (by simp)
    have hsome : tree_unflatten (tree_flatten il t).2
        ((zipAll ((tree_flatten il t).1 :: restLs)).map f) ≠ none := by
      intro hn
      have := (tree_unflatten_none_iff _ _).1 hn
      rw [List.length_map, zipAll_length, hzl] at this
      exact this rfl
    constructor
    · intro h
      exact absurd h hsome
    · intro ⟨r, hr, hfr⟩
      have := (mapOpt_none_iff (fun r => flattenUpTo (tree_flatten il t).2 r) rest).2
        ⟨r, hr, hfr⟩
      rw [hm] at this
      exact Option.noConfusion this

mutual

/-- A treedef has at least as many nodes as leaves. -/
theorem leaves_le_nodes_T : ∀ (td : TreeDef), td.numLeaves ≤ td.numNodes
  | .leaf => le_refl 1
  | .tupleN ts => by
    simp only [TreeDef.numLeaves, TreeDef.numNodes]
    have := leaves_le_nodes_F ts
    omega
  | .listN ts => by
    simp only [TreeDef.numLeaves, TreeDef.numNodes]
    have := leaves_le_nodes_F ts
    omega
  | .dictN es => by
    simp only [TreeDef.numLeaves, TreeDef.numNodes]
    have := leaves_le_nodes_E es
    omega
  | .odictN es => by
    simp only [TreeDef.numLeaves, TreeDef.numNodes]
    have := leaves_le_nodes_E es
    omega
  | .ddictN fac es => by
    simp only [TreeDef.numLeaves, TreeDef.numNodes]
    have := leaves_le_nodes_E es
    omega
  | .noneN => by simp [TreeDef.numLeaves, TreeDef.numNodes]
  | .custom tag aux ts => by
    simp only [TreeDef.numLeaves, TreeDef.numNodes]
    have := leaves_le_nodes_F ts
    omega

/-- Forest version of `leaves_le_nodes_T`. -/
theorem leaves_le_nodes_F : ∀ (ts : TDForest), ts.numLeaves ≤ ts.numNodes
  | .nil => le_refl 0
  | .cons t ts => by
    simp only [TDForest.numLeaves, TDForest.numNodes]
    have h1 := leaves_le_nodes_T t
    have h2 := leaves_le_nodes_F ts
    omega

/-- Entries version of `leaves_le_nodes_T`. -/
theorem leaves_le_nodes_E : ∀ (es : TDEntries), es.numLeaves ≤ es.numNodes
  | .nil => le_refl 0
  | .cons k t es => by
    simp only [TDEntries.numLeaves, TDEntries.numNodes]
    have h1 := leaves_le_nodes_T t
    have h2 := leaves_le_nodes_E es
    omega

end

theorem numNodes_pos (td : TreeDef) : 1 ≤ td.numNodes := by
  cases td <;> simp [TreeDef.numNodes]

/-- A single-node treedef has at most one leaf. -/
theorem single_node_leaves (td : TreeDef) (h : td.numNodes = 1) : td.numLeaves ≤ 1 := by
  have := leaves_le_nodes_T td
  omega

theorem flattenT_leaf_eq (v : Nat) :
    flattenT ilNone (.leaf v) = ([PyTree.leaf v], .leaf) := by
  simp [flattenT, ilNone]

theorem flattenT_tuple_eq (cs : PyForest) :
    flattenT ilNone (.tupleN cs) =
      (((cs.toList.map (flattenT ilNone)).map Prod.fst).flatten,
       .tupleN (TDForest.ofList ((cs.toList.map (flattenT ilNone)).map Prod.snd))) := by
  simp [flattenT, ilNone, flattenF_eq]

theorem flattenT_list_eq (cs : PyForest) :
    flattenT ilNone (.listN cs) =
      (((cs.toList.map (flattenT ilNone)).map Prod.fst).flatten,
       .listN (TDForest.ofList ((cs.toList.map (flattenT ilNone)).map Prod.snd))) := by
  simp [flattenT, ilNone, flattenF_eq]

theorem flattenT_dict_eq (es : PyEntries) :
    flattenT ilNone (.dictN es) =
      ((((sortByKey es.toList).map (fun p => (p.1, flattenT ilNone p.2))).map
          (fun p => p.2.1)).flatten,
       .dictN (TDEntries.ofList (((sortByKey es.toList).map
          (fun p => (p.1, flattenT ilNone p.2))).map (fun p => (p.1, p.2.2))))) := by
  simp [flattenT, ilNone, flattenE_eq, sortByKey_map]

theorem flattenT_odict_eq (es : PyEntries) :
    flattenT ilNone (.odictN es) =
      (((es.toList.map (fun p => (p.1, flattenT ilNone p.2))).map
          (fun p => p.2.1)).flatten,
       .odictN (TDEntries.ofList ((es.toList.map
          (fun p => (p.1, flattenT ilNone p.2))).map (fun p => (p.1, p.2.2))))) := by
  simp [flattenT, ilNone, flattenE_eq]

theorem flattenT_ddict_eq (fac : Nat) (es : PyEntries) :
    flattenT ilNone (.ddictN fac es) =
      ((((sortByKey es.toList).map (fun p => (p.1, flattenT ilNone p.2))).map
          (fun p => p.2.1)).flatten,
       .ddictN fac (TDEntries.ofList (((sortByKey es.toList).map
          (fun p => (p.1, flattenT ilNone p.2))).map (fun p => (p.1, p.2.2))))) := by
  simp [flattenT, ilNone, flattenE_eq, sortByKey_map]

theorem flattenT_none_eq : flattenT ilNone .noneN = ([], .noneN) := by
  simp [flattenT, ilNone]

theorem flattenT_custom_eq (tag aux : Nat) (cs : PyForest) :
    flattenT ilNone (.custom tag aux cs) =
      (((cs.toList.map (flattenT ilNone)).map Prod.fst).flatten,
       .custom tag aux (TDForest.ofList ((cs.toList.map (flattenT ilNone)).map Prod.snd))) := by
  simp [flattenT, ilNone, flattenF_eq]

/-- The treedef resulting from flattening records the root's runtime type. -/
theorem structT_kind (t : PyTree) : tdKind (flattenT ilNone t).2 = pyKind t := by
  cases t with
  | leaf v => rw [flattenT_leaf_eq]; rfl
  | tupleN cs => rw [flattenT_tuple_eq]; rfl
  | listN cs => rw [flattenT_list_eq]; rfl
  | dictN es => rw [flattenT_dict_eq]; rfl
  | odictN es => rw [flattenT_odict_eq]; rfl
  | ddictN fac es => rw [flattenT_ddict_eq]; rfl
  | noneN => rw [flattenT_none_eq]; rfl
  | custom tag aux cs => rw [flattenT_custom_eq]; rfl

theorem kindsMatch_iff (t1 t2 : PyTree) :
    kindsMatch t1 t2 = true ↔ pyKind t1 = pyKind t2 := by
  cases t1 <;> cases t2 <;> simp [kindsMatch, pyKind] <;> omega

/-- With no `is_leaf` predicate the strict-leaf test recognizes exactly
the opaque leaves. -/
theorem strict_leaf_iff (t : PyTree) :
    treedef_is_strict_leaf (tree_structure ilNone t) = true ↔ ∃ v, t = .leaf v := by
  rw [tree_structure, tree_flatten]
  cases t with
  | leaf v =>
    rw [flattenT_leaf_eq]
    simp [treedef_is_strict_leaf, TreeDef.numNodes, TreeDef.numLeaves]
  | tupleN cs =>
    rw [flattenT_tuple_eq]
    simp only [treedef_is_strict_leaf, TreeDef.numNodes, TreeDef.numLeaves]
    constructor
    · intro h
      simp only [Bool.and_eq_true, beq_iff_eq] at h
      have := leaves_le_nodes_F (TDForest.ofList ((cs.toList.map (flattenT ilNone)).map Prod.snd))
      omega
    · intro ⟨v, hv⟩
      cases hv
  | listN cs =>
    rw [flattenT_list_eq]
    simp only [treedef_is_strict_leaf, TreeDef.numNodes, TreeDef.numLeaves]
    constructor
    · intro h
      simp only [Bool.and_eq_true, beq_iff_eq] at h
      have := leaves_le_nodes_F (TDForest.ofList ((cs.toList.map (flattenT ilNone)).map Prod.snd))
      omega
    · intro ⟨v, hv⟩
      cases hv
  | dictN es =>
    rw [flattenT_dict_eq]
    simp only [treedef_is_strict_leaf, TreeDef.numNodes, TreeDef.numLeaves]
    constructor
    · intro h
      simp only [Bool.and_eq_true, beq_iff_eq] at h
      have := leaves_le_nodes_E (TDEntries.ofList (((sortByKey es.toList).map
        (fun p => (p.1, flattenT ilNone p.2))).map (fun p => (p.1, p.2.2))))
      omega
    · intro ⟨v, hv⟩
      cases hv
  | odictN es =>
    rw [flattenT_odict_eq]
    simp only [treedef_is_strict_leaf, TreeDef.numNodes, TreeDef.numLeaves]
    constructor
    · intro h
      simp only [Bool.and_eq_true, beq_iff_eq] at h
      have := leaves_le_nodes_E (TDEntries.ofList ((es.toList.map
        (fun p => (p.1, flattenT ilNone p.2))).map (fun p => (p.1, p.2.2))))
      omega
    · intro ⟨v, hv⟩
      cases hv
  | ddictN fac es =>
    rw [flattenT_ddict_eq]
    simp only [treedef_is_strict_leaf, TreeDef.numNodes, TreeDef.numLeaves]
    constructor
    · intro h
      simp only [Bool.and_eq_true, beq_iff_eq] at h
      have := leaves_le_nodes_E (TDEntries.ofList (((sortByKey es.toList).map
        (fun p => (p.1, flattenT ilNone p.2))).map (fun p => (p.1, p.2.2))))
      omega
    · intro ⟨v, hv⟩
      cases hv
  | noneN =>
    rw [flattenT_none_eq]
    simp [treedef_is_strict_leaf, TreeDef.numNodes, TreeDef.numLeaves]
  | custom tag aux cs =>
    rw [flattenT_custom_eq]
    simp only [treedef_is_strict_leaf, TreeDef.numNodes, TreeDef.numLeaves]
    constructor
    · intro h
      simp only [Bool.and_eq_true, beq_iff_eq] at h
      have := leaves_le_nodes_F (TDForest.ofList ((cs.toList.map (flattenT ilNone)).map Prod.snd))
      omega
    · intro ⟨v, hv⟩
      cases hv

theorem depthF_mem : ∀ (cs : PyForest), ∀ c ∈ cs.toList, depthT c ≤ depthF cs
  | .nil => by intro c hc; cases hc
  | .cons c cs => by
    intro c' hc'
    rcases List.mem_cons.1 hc' with rfl | hc'
    · simp [depthF]
    · have := depthF_mem cs c' hc'
      simp only [depthF]
      omega

theorem depthE_mem : ∀ (es : PyEntries), ∀ p ∈ es.toList, depthT p.2 ≤ depthE es
  | .nil => by intro p hp; cases hp
  | .cons k c es => by
    intro p hp
    rcases List.mem_cons.1 hp with rfl | hp
    · simp [depthE]
    · have := depthE_mem es p hp
      simp only [depthE]
      omega

/-- One-level children are strictly shallower than their node. -/
theorem flattenOneLevel_depth (t : PyTree) (cs : List PyTree) (m : AuxMeta)
    (h : flattenOneLevel t = some (cs, m)) : ∀ c ∈ cs, depthT c < depthT t := by
  cases t with
  | leaf v => exact Option.noConfusion h
  | tupleN cs0 =>
    simp only [flattenOneLevel] at h
    cases h
    intro c hc
    have := depthF_mem cs0 c hc
    simp only [depthT]
    omega
  | listN cs0 =>
    simp only [flattenOneLevel] at h
    cases h
    intro c hc
    have := depthF_mem cs0 c hc
    simp only [depthT]
    omega
  | dictN es =>
    simp only [flattenOneLevel] at h
    cases h
    intro c hc
    rcases List.mem_map.1 hc with ⟨p, hp, rfl⟩
    have := depthE_mem es p (mem_sortByKey.1 hp)
    simp only [depthT]
    omega
  | odictN es =>
    simp only [flattenOneLevel] at h
    cases h
    intro c hc
    rcases List.mem_map.1 hc with ⟨p, hp, rfl⟩
    have := depthE_mem es p hp
    simp only [depthT]
    omega
  | ddictN fac es =>
    simp only [flattenOneLevel] at h
    cases h
    intro c hc
    rcases List.mem_map.1 hc with ⟨p, hp, rfl⟩
    have := depthE_mem es p (mem_sortByKey.1 hp)
    simp only [depthT]
    omega
  | noneN =>
    simp only [flattenOneLevel] at h
    cases h
    intro c hc
    cases hc
  | custom tag aux cs0 =>
    simp only [flattenOneLevel] at h
    cases h
    intro c hc
    have := depthF_mem cs0 c hc
    simp only [depthT]
    omega

theorem TDForest_ofList_inj {l1 l2 : List TreeDef}
    (h : TDForest.ofList l1 = TDForest.ofList l2) : l1 = l2 := by
  rw [← tdForest_toList_ofList l1, ← tdForest_toList_ofList l2, h]

theorem TDEntries_ofList_inj {l1 l2 : List (Nat × TreeDef)}
    (h : TDEntries.ofList l1 = TDEntries.ofList l2) : l1 = l2 := by
  rw [← tdEntries_toList_ofList l1, ← tdEntries_toList_ofList l2, h]

theorem pairs_ext {α β : Type} : ∀ (l1 l2 : List (α × β)),
    l1.map Prod.fst = l2.map Prod.fst → l1.map Prod.snd = l2.map Prod.snd → l1 = l2
  | [], [], _, _ => rfl
  | [], q :: l2, h1, _ => by simp at h1
  | p :: l1, [], h1, _ => by simp at h1
  | p :: l1, q :: l2, h1, h2 => by
    simp only [List.map_cons, List.cons.injEq] at h1 h2
    have := pairs_ext l1 l2 h1.2 h2.2
    rw [this, Prod.ext h1.1 h2.1]

theorem zip_forall_iff_maps_eq {α β : Type} (f : α → β) : ∀ (l1 l2 : List α),
    l1.length = l2.length →
    ((∀ p ∈ l1.zip l2, f p.1 = f p.2) ↔ l1.map f = l2.map f)
  | [], [], _ => by simp
  | [], q :: l2, h => by simp at h
  | p :: l1, [], h => by simp at h
  | p :: l1, q :: l2, h => by
    simp only [List.length_cons, Nat.add_right_cancel_iff] at h
    simp only [List.zip_cons_cons, List.mem_cons, List.map_cons, List.cons.injEq]
    constructor
    · intro hall
      refine ⟨hall (p, q) (Or.inl rfl), ?_⟩
      exact (zip_forall_iff_maps_eq f l1 l2 h).1 (fun r hr => hall r (Or.inr hr))
    · intro ⟨hpq, hrest⟩ r hr
      rcases hr with rfl | hr
      · exact hpq
      · exact (zip_forall_iff_maps_eq f l1 l2 h).2 hrest r hr

theorem mem_zip_of_mem_right {α β : Type} : ∀ (ks : List α) (l : List β),
    l.length ≤ ks.length → ∀ q ∈ l, ∃ k, (k, q) ∈ ks.zip l
  | ks, [], _, q, hq => absurd hq (by simp)
  | [], q :: l, h, _, _ => by simp at h
  | k :: ks, q :: l, h, q', hq' => by
    rcases List.mem_cons.1 hq' with rfl | hq'
    · exact ⟨k, by simp⟩
    · simp only [List.length_cons] at h
      rcases mem_zip_of_mem_right ks l (by omega) q' hq' with ⟨k2, hk2⟩
      exact ⟨k2, by simp [hk2]⟩

theorem map_snd_map_flatten (l : List PyTree) :
    (l.map (flattenT ilNone)).map Prod.snd = l.map (fun c => (flattenT ilNone c).2) := by
  rw [List.map_map]
  rfl

theorem map_pair_snd2 (l : List (Nat × PyTree)) :
    (l.map (fun p => (p.1, flattenT ilNone p.2))).map (fun p => (p.1, p.2.2)) =
      l.map (fun p => (p.1, (flattenT ilNone p.2).2)) := by
  rw [List.map_map]
  rfl

theorem map_snd_struct (l : List (Nat × PyTree)) :
    (l.map Prod.snd).map (fun c => (flattenT ilNone c).2) =
      l.map (fun p => (flattenT ilNone p.2).2) := by
  rw [List.map_map]
  rfl

theorem map_pairStruct_fst (l : List (Nat × PyTree)) :
    (l.map (fun p => (p.1, (flattenT ilNone p.2).2))).map Prod.fst = l.map Prod.fst := by
  rw [List.map_map]
  rfl

theorem map_pairStruct_snd (l : List (Nat × PyTree)) :
    (l.map (fun p => (p.1, (flattenT ilNone p.2).2))).map Prod.snd =
      l.map (fun p => (flattenT ilNone p.2).2) := by
  rw [List.map_map]
  rfl

/-- Equality of the treedef entries two mappings produce, decomposed into
key-list equality and child-treedef equality. -/
theorem entries_struct_iff (l1 l2 : List (Nat × PyTree)) :
    TDEntries.ofList ((l1.map (fun p => (p.1, flattenT ilNone p.2))).map
        (fun p => (p.1, p.2.2))) =
      TDEntries.ofList ((l2.map (fun p => (p.1, flattenT ilNone p.2))).map
        (fun p => (p.1, p.2.2))) ↔
    (l1.map Prod.fst = l2.map Prod.fst ∧
     l1.map (fun p => (flattenT ilNone p.2).2) = l2.map (fun p => (flattenT ilNone p.2).2)) := by
  rw [map_pair_snd2, map_pair_snd2]
  constructor
  · intro h
    have h2 := TDEntries_ofList_inj h
    constructor
    · rw [← map_pairStruct_fst l1, ← map_pairStruct_fst l2, h2]
    · rw [← map_pairStruct_snd l1, ← map_pairStruct_snd l2, h2]
  · intro ⟨h1, h2⟩
    have : l1.map (fun p => (p.1, (flattenT ilNone p.2).2)) =
        l2.map (fun p => (p.1, (flattenT ilNone p.2).2)) := by
      apply pairs_ext
      · rw [map_pairStruct_fst, map_pairStruct_fst]
        exact h1
      · rw [map_pairStruct_snd, map_pairStruct_snd]
        exact h2
    rw [this]

theorem forest_struct_iff (l1 l2 : List PyTree) :
    TDForest.ofList ((l1.map (flattenT ilNone)).map Prod.snd) =
      TDForest.ofList ((l2.map (flattenT ilNone)).map Prod.snd) ↔
    l1.map (fun c => (flattenT ilNone c).2) = l2.map (fun c => (flattenT ilNone c).2) := by
  rw [map_snd_map_flatten, map_snd_map_flatten]
  exact ⟨TDForest_ofList_inj, congrArg _⟩

theorem map_dictKey_fst (l : List (Nat × PyTree)) :
    l.map (fun p => KeyEntry.dictKey p.1) = (l.map Prod.fst).map KeyEntry.dictKey := by
  rw [List.map_map]
  rfl

/-- When the per-child equality diagnostics all complete, the
concatenation is empty exactly when the children produce pairwise equal
treedefs. -/
theorem zipped_errs_opt_iff (n : Nat) (path : KeyPath) (keys : List KeyEntry)
    (c1s c2s : List PyTree)
    (hk : c1s.length ≤ keys.length) (hlen : c1s.length = c2s.length)
    (hIH : ∀ p ∈ c1s.zip c2s, ∀ (path2 : KeyPath) (l : List EqErr),
      eqErrsFuel n path2 ilNone p.1 p.2 = some l →
      (l = [] ↔ (flattenT ilNone p.1).2 = (flattenT ilNone p.2).2))
    (ls : List (List EqErr))
    (hm : mapOpt (fun p => eqErrsFuel n (path ++ [p.1]) ilNone p.2.1 p.2.2)
      (keys.zip (c1s.zip c2s)) = some ls) :
    ls.flatten = [] ↔
      c1s.map (fun c => (flattenT ilNone c).2) = c2s.map (fun c => (flattenT ilNone c).2) := by
  rw [List.flatten_eq_nil_iff, ← zip_forall_iff_maps_eq _ c1s c2s hlen]
  constructor
  · intro hall p hp
    have hlen2 : (c1s.zip c2s).length ≤ keys.length := by
      rw [List.length_zip]
      omega
    rcases mem_zip_of_mem_right keys (c1s.zip c2s) hlen2 p hp with ⟨k, hk2⟩
    rcases mapOpt_some_forall _ _ ls hm (k, p) hk2 with ⟨y, hy, hfy⟩
    have hy0 : y = [] := hall y hy
    rw [hy0] at hfy
    exact (hIH p hp (path ++ [k]) [] hfy).1 rfl
  · intro hall y hy
    rcases mapOpt_some_mem _ _ ls hm y hy with ⟨q, hq, hfq⟩
    have hq2 : q.2 ∈ c1s.zip c2s := (List.of_mem_zip hq).2
    exact (hIH q.2 hq2 _ y hfq).2 (hall q.2 hq2)

/-- Core of the equality diagnostics: on runs that complete (never hitting
the key assertion), the emitted error list is empty exactly when the two
trees flatten to equal treedefs. -/
theorem eqErrs_some_iff : ∀ (n : Nat) (path : KeyPath) (t1 t2 : PyTree),
    depthT t1 + depthT t2 < n →
    ∀ l : List EqErr, eqErrsFuel n path ilNone t1 t2 = some l →
    (l = [] ↔ (flattenT ilNone t1).2 = (flattenT ilNone t2).2) := by
  intro n
  induction n with
  | zero =>
    intro path t1 t2 h
    exact absurd h (Nat.not_lt_zero _)
  | succ n ih =>
    intro path t1 t2 hd l hsome
    simp only [eqErrsFuel] at hsome
    by_cases hsl : (treedef_is_strict_leaf (tree_structure ilNone t1) &&
        treedef_is_strict_leaf (tree_structure ilNone t2)) = true
    · rw [if_pos hsl] at hsome
      cases hsome
      simp only [Bool.and_eq_true] at hsl
      rcases (strict_leaf_iff t1).1 hsl.1 with ⟨v1, rfl⟩
      rcases (strict_leaf_iff t2).1 hsl.2 with ⟨v2, rfl⟩
      simp [flattenT_leaf_eq]
    · rw [if_neg hsl] at hsome
      by_cases hkm : kindsMatch t1 t2 = true
      · rw [if_neg (not_not_intro hkm)] at hsome
        cases t1 <;> cases t2 <;>
          try simp only [kindsMatch, Bool.false_eq_true] at hkm
        · -- leaf, leaf
          exfalso
          apply hsl
          rw [Bool.and_eq_true]
          exact ⟨(strict_leaf_iff _).2 ⟨_, rfl⟩, (strict_leaf_iff _).2 ⟨_, rfl⟩⟩
        · -- tuple, tuple
          rename_i cs1 cs2
          simp only [flattenOneLevel, isSeq, childKeys] at hsome
          by_cases hlen : cs1.toList.length = cs2.toList.length
          · have hck : (List.range cs1.toList.length).map KeyEntry.seqKey =
                (List.range cs2.toList.length).map KeyEntry.seqKey := by
              rw [hlen]
            rw [if_neg (by simp [hlen]), if_neg (not_not_intro hlen),
              if_neg (not_not_intro rfl), if_neg (not_not_intro hck)] at hsome
            cases hm : mapOpt (fun p => eqErrsFuel n (path ++ [p.1]) ilNone p.2.1 p.2.2)
                (((List.range cs1.toList.length).map KeyEntry.seqKey).zip
                  (cs1.toList.zip cs2.toList)) with
            | none =>
              rw [hm] at hsome
              exact Option.noConfusion hsome
            | some ls =>
              rw [hm] at hsome
              cases hsome
              simp only [flattenT_tuple_eq, TreeDef.tupleN.injEq]
              refine (zipped_errs_opt_iff n path _ cs1.toList cs2.toList (by simp) hlen
                ?_ ls hm).trans (forest_struct_iff cs1.toList cs2.toList).symm
              intro p hp path2 l2 h2
              apply ih path2 p.1 p.2 ?_ l2 h2
              have d1 := flattenOneLevel_depth (.tupleN cs1) _ _ rfl p.1
                (List.of_mem_zip hp).1
              have d2 := flattenOneLevel_depth (.tupleN cs2) _ _ rfl p.2
                (List.of_mem_zip hp).2
              omega
          · rw [if_pos ⟨trivial, hlen⟩] at hsome
            cases hsome
            constructor
            · intro h
              simp at h
            · intro h
              exfalso
              apply hlen
              simp only [flattenT_tuple_eq, TreeDef.tupleN.injEq] at h
              have := congrArg List.length ((forest_struct_iff _ _).1 h)
              simpa using this
        · -- list, list
          rename_i cs1 cs2
          simp only [flattenOneLevel, isSeq, childKeys] at hsome
          by_cases hlen : cs1.toList.length = cs2.toList.length
          · have hck : (List.range cs1.toList.length).map KeyEntry.seqKey =
                (List.range cs2.toList.length).map KeyEntry.seqKey := by
              rw [hlen]
            rw [if_neg (by simp [hlen]), if_neg (not_not_intro hlen),
              if_neg (not_not_intro rfl), if_neg (not_not_intro hck)] at hsome
            cases hm : mapOpt (fun p => eqErrsFuel n (path ++ [p.1]) ilNone p.2.1 p.2.2)
                (((List.range cs1.toList.length).map KeyEntry.seqKey).zip
                  (cs1.toList.zip cs2.toList)) with
            | none =>
              rw [hm] at hsome
              exact Option.noConfusion hsome
            | some ls =>
              rw [hm] at hsome
              cases hsome
              simp only [flattenT_list_eq, TreeDef.listN.injEq]
              refine (zipped_errs_opt_iff n path _ cs1.toList cs2.toList (by simp) hlen
                ?_ ls hm).trans (forest_struct_iff cs1.toList cs2.toList).symm
              intro p hp path2 l2 h2
              apply ih path2 p.1 p.2 ?_ l2 h2
              have d1 := flattenOneLevel_depth (.listN cs1) _ _ rfl p.1
                (List.of_mem_zip hp).1
              have d2 := flattenOneLevel_depth (.listN cs2) _ _ rfl p.2
                (List.of_mem_zip hp).2
              omega
          · rw [if_pos ⟨trivial, hlen⟩] at hsome
            cases hsome
            constructor
            · intro h
              simp at h
            · intro h
              exfalso
              apply hlen
              simp only [flattenT_list_eq, TreeDef.listN.injEq] at h
              have := congrArg List.length ((forest_struct_iff _ _).1 h)
              simpa using this
        · -- dict, dict
          rename_i es1 es2
          simp only [flattenOneLevel, isSeq, childKeys] at hsome
          by_cases hlen : ((sortByKey es1.toList).map Prod.snd).length =
              ((sortByKey es2.toList).map Prod.snd).length
          · rw [if_neg (by simp), if_neg (not_not_intro hlen)] at hsome
            by_cases hmeta : AuxMeta.keysM ((sortByKey es1.toList).map Prod.fst) =
                AuxMeta.keysM ((sortByKey es2.toList).map Prod.fst)
            · have hkeys : (sortByKey es1.toList).map Prod.fst =
                  (sortByKey es2.toList).map Prod.fst := by
                simpa using hmeta
              have hck : (sortByKey es1.toList).map (fun p => KeyEntry.dictKey p.1) =
                  (sortByKey es2.toList).map (fun p => KeyEntry.dictKey p.1) := by
                rw [map_dictKey_fst, map_dictKey_fst, hkeys]
              rw [if_neg (not_not_intro hmeta), if_neg (not_not_intro hck)] at hsome
              cases hm : mapOpt (fun p => eqErrsFuel n (path ++ [p.1]) ilNone p.2.1 p.2.2)
                  (((sortByKey es1.toList).map (fun p => KeyEntry.dictKey p.1)).zip
                    (((sortByKey es1.toList).map Prod.snd).zip
                      ((sortByKey es2.toList).map Prod.snd))) with
              | none =>
                rw [hm] at hsome
                exact Option.noConfusion hsome
              | some ls =>
                rw [hm] at hsome
                cases hsome
                simp only [flattenT_dict_eq, TreeDef.dictN.injEq]
                refine (zipped_errs_opt_iff n path _ ((sortByKey es1.toList).map Prod.snd)
                  ((sortByKey es2.toList).map Prod.snd) (by simp) hlen ?_ ls hm).trans ?_
                · intro p hp path2 l2 h2
                  apply ih path2 p.1 p.2 ?_ l2 h2
                  have d1 := flattenOneLevel_depth (.dictN es1) _ _ rfl p.1
                    (List.of_mem_zip hp).1
                  have d2 := flattenOneLevel_depth (.dictN es2) _ _ rfl p.2
                    (List.of_mem_zip hp).2
                  omega
                · rw [map_snd_struct, map_snd_struct]
                  constructor
                  · intro hsnd
                    exact (entries_struct_iff _ _).2 ⟨hkeys, hsnd⟩
                  · intro h
                    exact ((entries_struct_iff _ _).1 h).2
            · rw [if_pos hmeta] at hsome
              cases hsome
              constructor
              · intro h
                simp at h
              · intro h
                exfalso
                apply hmeta
                simp only [flattenT_dict_eq, TreeDef.dictN.injEq] at h
                have := ((entries_struct_iff _ _).1 h).1
                simp [this]
          · rw [if_neg (by simp), if_pos hlen] at hsome
            cases hsome
            constructor
            · intro h
              simp at h
            · intro h
              exfalso
              apply hlen
              simp only [flattenT_dict_eq, TreeDef.dictN.injEq] at h
              have := congrArg List.length ((entries_struct_iff _ _).1 h).2
              simpa using this
        · -- odict, odict
          rename_i es1 es2
          simp only [flattenOneLevel, isSeq, childKeys] at hsome
          by_cases hlen : (es1.toList.map Prod.snd).length =
              (es2.toList.map Prod.snd).length
          · rw [if_neg (by simp), if_neg (not_not_intro hlen)] at hsome
            by_cases hmeta : AuxMeta.keysM (es1.toList.map Prod.fst) =
                AuxMeta.keysM (es2.toList.map Prod.fst)
            · have hkeys : es1.toList.map Prod.fst = es2.toList.map Prod.fst := by
                simpa using hmeta
              have hck : es1.toList.map (fun p => KeyEntry.dictKey p.1) =
                  es2.toList.map (fun p => KeyEntry.dictKey p.1) := by
                rw [map_dictKey_fst, map_dictKey_fst, hkeys]
              rw [if_neg (not_not_intro hmeta), if_neg (not_not_intro hck)] at hsome
              cases hm : mapOpt (fun p => eqErrsFuel n (path ++ [p.1]) ilNone p.2.1 p.2.2)
                  ((es1.toList.map (fun p => KeyEntry.dictKey p.1)).zip
                    ((es1.toList.map Prod.snd).zip (es2.toList.map Prod.snd))) with
              | none =>
                rw [hm] at hsome
                exact Option.noConfusion hsome
              | some ls =>
                rw [hm] at hsome
                cases hsome
                simp only [flattenT_odict_eq, TreeDef.odictN.injEq]
                refine (zipped_errs_opt_iff n path _ (es1.toList.map Prod.snd)
                  (es2.toList.map Prod.snd) (by simp) hlen ?_ ls hm).trans ?_
                · intro p hp path2 l2 h2
                  apply ih path2 p.1 p.2 ?_ l2 h2
                  have d1 := flattenOneLevel_depth (.odictN es1) _ _ rfl p.1
                    (List.of_mem_zip hp).1
                  have d2 := flattenOneLevel_depth (.odictN es2) _ _ rfl p.2
                    (List.of_mem_zip hp).2
                  omega
                · rw [map_snd_struct, map_snd_struct]
                  constructor
                  · intro hsnd
                    exact (entries_struct_iff _ _).2 ⟨hkeys, hsnd⟩
                  · intro h
                    exact ((entries_struct_iff _ _).1 h).2
            · rw [if_pos hmeta] at hsome
              cases hsome
              constructor
              · intro h
                simp at h
              · intro h
                exfalso
                apply hmeta
                simp only [flattenT_odict_eq, TreeDef.odictN.injEq] at h
                have := ((entries_struct_iff _ _).1 h).1
                simp [this]
          · rw [if_neg (by simp), if_pos hlen] at hsome
            cases hsome
            constructor
            · intro h
              simp at h
            · intro h
              exfalso
              apply hlen
              simp only [flattenT_odict_eq, TreeDef.odictN.injEq] at h
              have := congrArg List.length ((entries_struct_iff _ _).1 h).2
              simpa using this
        · -- ddict, ddict: the childKeys assertion is live here
          rename_i fac1 es1 fac2 es2
          simp only [flattenOneLevel, isSeq, childKeys] at hsome
          by_cases hlen : ((sortByKey es1.toList).map Prod.snd).length =
              ((sortByKey es2.toList).map Prod.snd).length
          · rw [if_neg (by simp), if_neg (not_not_intro hlen)] at hsome
            by_cases hmeta : AuxMeta.facKeysM fac1 ((sortByKey es1.toList).map Prod.fst) =
                AuxMeta.facKeysM fac2 ((sortByKey es2.toList).map Prod.fst)
            · rw [if_neg (not_not_intro hmeta)] at hsome
              have hfk : fac1 = fac2 ∧ (sortByKey es1.toList).map Prod.fst =
                  (sortByKey es2.toList).map Prod.fst := by
                simpa using hmeta
              obtain ⟨rfl, hkeys⟩ := hfk
              by_cases hck : es1.toList.map (fun p => KeyEntry.dictKey p.1) =
                  es2.toList.map (fun p => KeyEntry.dictKey p.1)
              · rw [if_neg (not_not_intro hck)] at hsome
                cases hm : mapOpt (fun p => eqErrsFuel n (path ++ [p.1]) ilNone p.2.1 p.2.2)
                    ((es1.toList.map (fun p => KeyEntry.dictKey p.1)).zip
                      (((sortByKey es1.toList).map Prod.snd).zip
                        ((sortByKey es2.toList).map Prod.snd))) with
                | none =>
                  rw [hm] at hsome
                  exact Option.noConfusion hsome
                | some ls =>
                  rw [hm] at hsome
                  cases hsome
                  simp only [flattenT_ddict_eq, TreeDef.ddictN.injEq, true_and]
                  refine (zipped_errs_opt_iff n path _ ((sortByKey es1.toList).map Prod.snd)
                    ((sortByKey es2.toList).map Prod.snd) ?_ hlen ?_ ls hm).trans ?_
                  · have h1 : (sortByKey es1.toList).length = es1.toList.length :=
                      (sortByKey_perm es1.toList).length_eq
                    simp [h1]
                  · intro p hp path2 l2 h2
                    apply ih path2 p.1 p.2 ?_ l2 h2
                    have d1 := flattenOneLevel_depth (.ddictN fac1 es1) _ _ rfl p.1
                      (List.of_mem_zip hp).1
                    have d2 := flattenOneLevel_depth (.ddictN fac1 es2) _ _ rfl p.2
                      (List.of_mem_zip hp).2
                    omega
                  · rw [map_snd_struct, map_snd_struct]
                    constructor
                    · intro hsnd
                      exact (entries_struct_iff _ _).2 ⟨hkeys, hsnd⟩
                    · intro h
                      exact ((entries_struct_iff _ _).1 h).2
              · rw [if_pos hck] at hsome
                exact Option.noConfusion hsome
            · rw [if_pos hmeta] at hsome
              cases hsome
              constructor
              · intro h
                simp at h
              · intro h
                exfalso
                apply hmeta
                simp only [flattenT_ddict_eq, TreeDef.ddictN.injEq] at h
                have := ((entries_struct_iff _ _).1 h.2).1
                simp [this, h.1]
          · rw [if_neg (by simp), if_pos hlen] at hsome
            cases hsome
            constructor
            · intro h
              simp at h
            · intro h
              exfalso
              apply hlen
              simp only [flattenT_ddict_eq, TreeDef.ddictN.injEq] at h
              have := congrArg List.length ((entries_struct_iff _ _).1 h.2).2
              simpa using this
        · -- none, none
          simp only [flattenOneLevel, isSeq, childKeys] at hsome
          rw [if_neg (by simp), if_neg (not_not_intro rfl), if_neg (not_not_intro rfl),
            if_neg (not_not_intro rfl)] at hsome
          cases hsome
          simp [flattenT_none_eq]
        · -- custom, custom
          rename_i tag1 aux1 cs1 tag2 aux2 cs2
          have htag : tag1 = tag2 := by simpa using hkm
          subst htag
          simp only [flattenOneLevel, isSeq, childKeys] at hsome
          by_cases hlen : cs1.toList.length = cs2.toList.length
          · rw [if_neg (by simp), if_neg (not_not_intro hlen)] at hsome
            by_cases haux : AuxMeta.auxM aux1 = AuxMeta.auxM aux2
            · have haux2 : aux1 = aux2 := by simpa using haux
              subst haux2
              have hck : (List.range cs1.toList.length).map KeyEntry.flatIndexKey =
                  (List.range cs2.toList.length).map KeyEntry.flatIndexKey := by
                rw [hlen]
              rw [if_neg (not_not_intro haux), if_neg (not_not_intro hck)] at hsome
              cases hm : mapOpt (fun p => eqErrsFuel n (path ++ [p.1]) ilNone p.2.1 p.2.2)
                  (((List.range cs1.toList.length).map KeyEntry.flatIndexKey).zip
                    (cs1.toList.zip cs2.toList)) with
              | none =>
                rw [hm] at hsome
                exact Option.noConfusion hsome
              | some ls =>
                rw [hm] at hsome
                cases hsome
                simp only [flattenT_custom_eq, TreeDef.custom.injEq, true_and]
                refine (zipped_errs_opt_iff n path _ cs1.toList cs2.toList (by simp) hlen
                  ?_ ls hm).trans (forest_struct_iff cs1.toList cs2.toList).symm
                intro p hp path2 l2 h2
                apply ih path2 p.1 p.2 ?_ l2 h2
                have d1 := flattenOneLevel_depth (.custom tag1 aux1 cs1) _ _ rfl p.1
                  (List.of_mem_zip hp).1
                have d2 := flattenOneLevel_depth (.custom tag1 aux1 cs2) _ _ rfl p.2
                  (List.of_mem_zip hp).2
                omega
            · rw [if_pos haux] at hsome
              cases hsome
              constructor
              · intro h
                simp at h
              · intro h
                exfalso
                apply haux
                simp only [flattenT_custom_eq, TreeDef.custom.injEq] at h
                simp [h.2.1]
          · rw [if_neg (by simp), if_pos hlen] at hsome
            cases hsome
            constructor
            · intro h
              simp at h
            · intro h
              exfalso
              apply hlen
              simp only [flattenT_custom_eq, TreeDef.custom.injEq] at h
              have := congrArg List.length ((forest_struct_iff _ _).1 h.2.2)
              simpa using this
      · rw [if_pos hkm] at hsome
        cases hsome
        constructor
        · intro hc
          simp at hc
        · intro hstruct
          exfalso
          apply hkm
          apply (kindsMatch_iff t1 t2).2
          rw [← structT_kind t1, ← structT_kind t2, hstruct]

/-- C1: for every tree built only from registered node types and opaque
leaves, unflattening the output of flattening rebuilds a tree structurally
equal (Python `==`, which disregards mapping insertion order) to the
original. -/
theorem claim_C1_roundtrip (t : PyTree) :
    ∃ t', tree_unflatten (tree_flatten ilNone t).2 (tree_flatten ilNone t).1 = some t' ∧
      pyEq t' t :=
  ⟨canon t, roundtrip_canon t, canon_idem t⟩

/-- C2: `tree_unflatten` fails with `StructureMismatch` exactly when the
leaf sequence length differs from `num_leaves(treedef)`, and the output of
flatten always satisfies `num_leaves(treedef) = len(leaves)`. -/
theorem claim_C2_leaf_count :
    (∀ (td : TreeDef) (ls : List PyTree),
      tree_unflatten td ls = none ↔ ls.length ≠ td.numLeaves) ∧
    (∀ (il : PyTree → Bool) (t : PyTree),
      (tree_flatten il t).1.length = (tree_flatten il t).2.numLeaves) :=
  ⟨tree_unflatten_none_iff, fun il t => flat_len_T il t⟩

/-- C3: `tree_map` decomposes each rest tree only as far as the primary
treedef requires, failing with `StructureMismatch` exactly when a rest
tree diverges from the treedef before the treedef reaches a leaf;
applying it to `[5, 6]` and `[[7, 9], [1, 2]]` with `f = lambda x, y:
[x] + y` yields `[[5, 7, 9], [6, 1, 2]]`. -/
theorem claim_C3_tree_map :
    (∀ (f : List PyTree → PyTree) (il : PyTree → Bool) (t : PyTree) (rest : List PyTree),
      tree_map f il t rest = none ↔
        ∃ r ∈ rest, flattenUpTo (tree_structure il t) r = none) ∧
    tree_map
      (fun xs => match xs with
        | [x, PyTree.listN cs] => PyTree.listN (.cons x cs)
        | _ => PyTree.noneN)
      ilNone
      (.listN (.cons (.leaf 5) (.cons (.leaf 6) .nil)))
      [.listN (.cons (.listN (.cons (.leaf 7) (.cons (.leaf 9) .nil)))
        (.cons (.listN (.cons (.leaf 1) (.cons (.leaf 2) .nil))) .nil))] =
      some (.listN (.cons
        (.listN (.cons (.leaf 5) (.cons (.leaf 7) (.cons (.leaf 9) .nil))))
        (.cons (.listN (.cons (.leaf 6) (.cons (.leaf 1) (.cons (.leaf 2) .nil))))
          .nil))) :=
  ⟨tree_map_none_iff, by decide⟩

/-- C4: flattening emits mapping children in sorted key order, so two
dicts with the same key/value pairs flatten identically regardless of
construction order; flattening `{"b": 1, "a": 2}` (keys encoded `b = 1`,
`a = 0`) yields leaves `[2, 1]` and a treedef recording keys `(a, b)`. -/
theorem claim_C4_dict_order :
    (∀ (es1 es2 : List (Nat × PyTree)), es1.Perm es2 → (es1.map Prod.fst).Nodup →
      tree_flatten ilNone (.dictN (PyEntries.ofList es1)) =
        tree_flatten ilNone (.dictN (PyEntries.ofList es2))) ∧
    tree_flatten ilNone (.dictN (.cons 1 (.leaf 1) (.cons 0 (.leaf 2) .nil))) =
      ([.leaf 2, .leaf 1], .dictN (.cons 0 .leaf (.cons 1 .leaf .nil))) := by
  constructor
  · intro es1 es2 hp hnd
    rw [tree_flatten, tree_flatten, flattenT_dict_eq, flattenT_dict_eq,
      pyEntries_toList_ofList, pyEntries_toList_ofList,
      sortByKey_eq_of_perm hp hnd]
  · decide

theorem claim_C4_dict_order_witness :
    tree_flatten ilNone (.dictN (PyEntries.ofList [(1, .leaf 1), (0, .leaf 2)])) =
      tree_flatten ilNone (.dictN (PyEntries.ofList [(0, .leaf 2), (1, .leaf 1)])) :=
  claim_C4_dict_order.1 [(1, .leaf 1), (0, .leaf 2)] [(0, .leaf 2), (1, .leaf 1)]
    (by decide) (by decide)

/-- C5: for every tree and every `is_leaf` predicate, the key-path
generator produces exactly one `(KeyPath, leaf)` entry per leaf, with the
leaves in the same traversal order as the flatten engine's leaf list. -/
theorem claim_C5_key_paths (il : PyTree → Bool) (t : PyTree) :
    (generate_key_paths il t).map Prod.snd = tree_leaves il t ∧
    (generate_key_paths il t).length = (tree_leaves il t).length := by
  have h : (generate_key_paths il t).map Prod.snd = tree_leaves il t := kpT il t
  refine ⟨h, ?_⟩
  rw [← h, List.length_map]

/-- C6: with the inner treedef supplied, `tree_transpose` fails with the
error naming the composed treedef whenever the tree's leaf count is not
`inner_size * outer_size`; transposing `[(1,2,3),(4,5,6)]` with outer
structure `[*, *]` and inner structure `(*, *, *)` yields
`([1, 4], [2, 5], [3, 6])`. -/
theorem claim_C6_transpose :
    (∀ (outer_treedef inner_treedef : TreeDef) (t : PyTree),
      (tree_flatten ilNone t).2.numLeaves ≠
          inner_treedef.numLeaves * outer_treedef.numLeaves →
      tree_transpose outer_treedef inner_treedef t =
        .mismatch (TreeDef.compose inner_treedef outer_treedef)) ∧
    tree_transpose
      (.listN (.cons .leaf (.cons .leaf .nil)))
      (.tupleN (.cons .leaf (.cons .leaf (.cons .leaf .nil))))
      (.listN (.cons (.tupleN (.cons (.leaf 1) (.cons (.leaf 2) (.cons (.leaf 3) .nil))))
        (.cons (.tupleN (.cons (.leaf 4) (.cons (.leaf 5) (.cons (.leaf 6) .nil))))
          .nil))) =
      .ok (.tupleN (.cons (.listN (.cons (.leaf 1) (.cons (.leaf 4) .nil)))
        (.cons (.listN (.cons (.leaf 2) (.cons (.leaf 5) .nil)))
        (.cons (.listN (.cons (.leaf 3) (.cons (.leaf 6) .nil))) .nil)))) := by
  constructor
  · intro outer_treedef inner_treedef t h
    rw [tree_transpose]
    rw [if_pos h]
  · decide

theorem claim_C6_transpose_witness :
    tree_transpose .leaf .leaf (.tupleN (.cons (.leaf 1) (.cons (.leaf 2) .nil))) =
      .mismatch .leaf :=
  claim_C6_transpose.1 .leaf .leaf (.tupleN (.cons (.leaf 1) (.cons (.leaf 2) .nil)))
    (by decide)

/-- C7: on every run of the equality diagnostics that completes, the
output is empty exactly when the two trees have identical structure
(equal treedefs, hence equal node types, child counts, metadata and leaf
positions), and leaf values are never compared — but the diagnostics do
not always complete: on two `defaultdict` values with equal contents
inserted in different orders, the key assertion at line 886 fails
(`_child_keys` lists `defaultdict` keys in insertion order while the
children are flattened in sorted order), so `equality_errors` raises
`AssertionError` on a pair of trees with identical structure instead of
yielding no items. -/
theorem claim_C7_equality_errors :
    (∀ (t1 t2 : PyTree) (l : List EqErr), equality_errors ilNone t1 t2 = some l →
      (l = [] ↔ tree_structure ilNone t1 = tree_structure ilNone t2)) ∧
    equality_errors ilNone
      (.ddictN 0 (.cons 1 (.leaf 1) (.cons 0 (.leaf 2) .nil)))
      (.ddictN 0 (.cons 0 (.leaf 2) (.cons 1 (.leaf 1) .nil))) = none ∧
    tree_structure ilNone (.ddictN 0 (.cons 1 (.leaf 1) (.cons 0 (.leaf 2) .nil))) =
      tree_structure ilNone (.ddictN 0 (.cons 0 (.leaf 2) (.cons 1 (.leaf 1) .nil))) := by
  refine ⟨?_, by decide, by decide⟩
  intro t1 t2 l h
  rw [equality_errors] at h
  rw [tree_structure, tree_structure, tree_flatten, tree_flatten]
  exact eqErrs_some_iff (depthT t1 + depthT t2 + 1) [] t1 t2 (by omega) l h

theorem claim_C7_equality_errors_witness :
    (([] : List EqErr) = [] ↔
      tree_structure ilNone (.leaf 1) = tree_structure ilNone (.leaf 2)) :=
  claim_C7_equality_errors.1 (.leaf 1) (.leaf 2) [] (by decide)

/-- C8: a leaf on the prefix side always succeeds with no error, whatever
the corresponding full subtree looks like; in particular
`prefix_errors([1, 2], [[1, 2], [3, 4]])` yields no errors. -/
theorem claim_C8_prefix_leaf :
    (∀ (il : PyTree → Bool) (prefix_tree full_tree : PyTree),
      treedef_is_strict_leaf (tree_structure il prefix_tree) = true →
      prefix_errors il prefix_tree full_tree = some []) ∧
    prefix_errors ilNone
      (.listN (.cons (.leaf 1) (.cons (.leaf 2) .nil)))
      (.listN (.cons (.listN (.cons (.leaf 1) (.cons (.leaf 2) .nil)))
        (.cons (.listN (.cons (.leaf 3) (.cons (.leaf 4) .nil))) .nil))) = some [] := by
  constructor
  · intro il prefix_tree full_tree h
    rw [prefix_errors]
    simp only [prefixErrsFuel]
    rw [if_pos h]
  · decide

theorem claim_C8_prefix_leaf_witness :
    prefix_errors ilNone (.leaf 1)
      (.listN (.cons (.listN (.cons (.leaf 1) (.cons (.leaf 2) .nil)))
        (.cons (.listN (.cons (.leaf 3) (.cons (.leaf 4) .nil))) .nil))) = some [] :=
  claim_C8_prefix_leaf.1 ilNone (.leaf 1) _ (by decide)

/-- C9: the strict one-level decomposition fails with
`UnrecognizedStructure` exactly on values of unregistered (leaf) types,
while ordinary flatten never fails and treats such values as leaves. -/
theorem claim_C9_one_level :
    (∀ t : PyTree, flatten_one_level t = none ↔ registered t = false) ∧
    (∀ (il : PyTree → Bool) (t : PyTree), registered t = false →
      tree_flatten il t = ([t], .leaf)) := by
  constructor
  · intro t
    cases t <;> simp [flatten_one_level, flattenOneLevel, registered]
  · intro il t h
    cases t <;> simp [registered] at h
    rename_i v
    by_cases hil : il (.leaf v)
    · exact flattenT_pos il _ hil
    · rw [tree_flatten]
      simp [flattenT, hil]

theorem claim_C9_one_level_witness :
    tree_flatten ilNone (.leaf 7) = ([.leaf 7], .leaf) :=
  claim_C9_one_level.2 ilNone (.leaf 7) (by decide)

/-- C10: `treedef_is_leaf` holds exactly on single-node treedefs, so it
also accepts zero-leaf single-node treedefs (the structures of `None` and
of an empty container) that the strict check rejects; the two predicates
disagree precisely on the zero-leaf single-node treedefs. -/
theorem claim_C10_is_leaf :
    (∀ td : TreeDef, treedef_is_leaf td = true ↔ td.numNodes = 1) ∧
    (∀ td : TreeDef,
      (treedef_is_leaf td = true ∧ treedef_is_strict_leaf td = false) ↔
        (td.numNodes = 1 ∧ td.numLeaves = 0)) ∧
    treedef_is_leaf (tree_structure ilNone .noneN) = true ∧
    treedef_is_strict_leaf (tree_structure ilNone .noneN) = false ∧
    treedef_is_leaf (tree_structure ilNone (.tupleN .nil)) = true ∧
    treedef_is_strict_leaf (tree_structure ilNone (.tupleN .nil)) = false := by
  refine ⟨?_, ?_, by decide, by decide, by decide, by decide⟩
  · intro td
    simp [treedef_is_leaf]
  · intro td
    constructor
    · intro ⟨h1, h2⟩
      have hn : td.numNodes = 1 := by simpa [treedef_is_leaf] using h1
      have hle : td.numLeaves ≤ 1 := single_node_leaves td hn
      refine ⟨hn, ?_⟩
      by_cases hl : td.numLeaves = 1
      · exfalso
        have : treedef_is_strict_leaf td = true := by
          simp [treedef_is_strict_leaf, hn, hl]
        rw [this] at h2
        cases h2
      · omega
    · intro ⟨hn, hl⟩
      refine ⟨by simp [treedef_is_leaf, hn], ?_⟩
      simp [treedef_is_strict_leaf, hn, hl]
